import Mathlib

/-!
# Verification of the fid-rs succinct bit vector library

Shallow embedding of the fid-rs sources (`src/internal_data_structure/raw_bit_vector.rs`,
`src/internal_data_structure/popcount_table.rs`, `src/fid/{fid,chunks,chunk}.rs`,
`src/succinct_bit_vector/blocks.rs`, `src/louds/{louds,louds_builder}.rs`) together with
proofs about rank/select/LOUDS behaviour.

Machine integers (`u8`, `u16`, `u32`, `u64`) are modelled as `Nat`; the only operation in
these sources that can drop high bits is the `u8` shift `byte1 << k` inside `copy_sub`,
which is rendered as `(byte1 <<< k) % 256`.  Rust panics (failed `assert!`s, out-of-range
indexing, `expect` on `None`) are modelled by total functions plus explicit side
conditions in the theorems, or by `Option` results where the claim is about the panic
itself.  Loops are rendered as structural recursions (with an explicit iteration bound
where the Rust loop is unbounded, proved never to be reached).
-/

namespace FidRs

/-- popcount of a natural number, i.e. Rust's `uN::count_ones`.  The first argument is a
structural-recursion bound on the number of binary digits; `countOnes` instantiates it. -/
def countOnesAux : Nat → Nat → Nat
  | 0, _ => 0
  | fuel + 1, n => if n = 0 then 0 else n % 2 + countOnesAux fuel (n / 2)

/-- Rust's `count_ones` intrinsic on a natural number. -/
def countOnes (n : Nat) : Nat := countOnesAux n n

/-- `RawBitVector` from `src/internal_data_structure/raw_bit_vector.rs`: a bit vector
packed into bytes, MSB-first, the last byte holding `last_byte_len ∈ [1,8]` logical bits.
Bytes are `u8`, modelled as `Nat` with the well-formedness condition `< 256` carried as a
hypothesis in the theorems. -/
structure RawBitVector where
  byte_vec : List Nat
  last_byte_len : Nat
  deriving Repr, DecidableEq

/-- `RawBitVector::length`. -/
def RawBitVector.length (v : RawBitVector) : Nat :=
  (v.byte_vec.length - 1) * 8 + v.last_byte_len

/-- `RawBitVector::access`: bit `i` sits in byte `i / 8` at MSB-first position
`7 - i % 8`; the Rust `match` tests the byte against the corresponding mask. -/
def RawBitVector.access (v : RawBitVector) (i : Nat) : Bool :=
  let byte := v.byte_vec.getD (i / 8) 0
  match i % 8 with
  | 0 => byte &&& 0b10000000 != 0
  | 1 => byte &&& 0b01000000 != 0
  | 2 => byte &&& 0b00100000 != 0
  | 3 => byte &&& 0b00010000 != 0
  | 4 => byte &&& 0b00001000 != 0
  | 5 => byte &&& 0b00000100 != 0
  | 6 => byte &&& 0b00000010 != 0
  | _ => byte &&& 0b00000001 != 0

/-- `RawBitVector::set_bit`: OR the mask of bit `i` into byte `i / 8`. -/
def RawBitVector.set_bit (v : RawBitVector) (i : Nat) : RawBitVector :=
  let byte := v.byte_vec.getD (i / 8) 0
  let byte' :=
    match i % 8 with
    | 0 => byte ||| 0b10000000
    | 1 => byte ||| 0b01000000
    | 2 => byte ||| 0b00100000
    | 3 => byte ||| 0b00010000
    | 4 => byte ||| 0b00001000
    | 5 => byte ||| 0b00000100
    | 6 => byte ||| 0b00000010
    | _ => byte ||| 0b00000001
  { v with byte_vec := v.byte_vec.set (i / 8) byte' }

/-- `RawBitVector::popcount`: fold of `count_ones` over the whole byte buffer (note: it
does not mask the bits of the last byte beyond `last_byte_len`). -/
def RawBitVector.popcount (v : RawBitVector) : Nat :=
  v.byte_vec.foldl (fun popcnt byte => countOnes byte + popcnt) 0

/-- `RawBitVector::from_length`: `⌈length/8⌉` zero bytes. -/
def RawBitVector.from_length (length : Nat) : RawBitVector :=
  { byte_vec := List.replicate ((length - 1) / 8 + 1) 0
    last_byte_len := if length % 8 = 0 then 8 else length % 8 }

/-- Iteration `t` (i.e. `j = start + 8*t`) of the byte-aligned branch of
`RawBitVector::copy_sub`: take the whole source byte and zero the copied byte's bits past
the end of the range. -/
def RawBitVector.copy_sub_aligned_byte (v : RawBitVector) (start size t : Nat) : Nat :=
  let j := start + 8 * t
  let byte := v.byte_vec.getD (j / 8) 0
  let rdisc := if start + size - j ≥ 8 then 0 else 8 - (start + size - j)
  (byte >>> rdisc) <<< rdisc

/-- Iteration `t` of the unaligned branch of `RawBitVector::copy_sub`: splice the copied
byte from two adjacent source bytes (the second read as 0 past the end of the buffer),
then zero the bits past the end of the range.  `(byte1 <<< ldisc) % 256` is the `u8`
left shift. -/
def RawBitVector.copy_sub_unaligned_byte (v : RawBitVector) (start size t : Nat) : Nat :=
  let ldisc := start % 8
  let rdisc2 := 8 - ldisc
  let j := start + 8 * t
  let i_byte1 := j / 8
  let byte1 := v.byte_vec.getD i_byte1 0
  let byte2 := if i_byte1 + 1 < v.byte_vec.length then v.byte_vec.getD (i_byte1 + 1) 0 else 0
  let copied := ((byte1 <<< ldisc) % 256) ||| (byte2 >>> rdisc2)
  let rdisc := if start + size - j ≥ 8 then 0 else 8 - (start + size - j)
  (copied >>> rdisc) <<< rdisc

/-- `RawBitVector::copy_sub`: copies bits `[i, i+size)` into a fresh vector.  The Rust
`for j in (start..end).step_by(8)` loop performs `⌈size/8⌉` independent iterations
(`j = start + 8*t`); it is rendered as a `List.range`-map over the two loop bodies
above. -/
def RawBitVector.copy_sub (v : RawBitVector) (i size : Nat) : RawBitVector :=
  let start := i
  let nbytes := (size + 7) / 8
  let sub_byte_vec :=
    if start % 8 = 0 then
      (List.range nbytes).map (v.copy_sub_aligned_byte start size)
    else
      (List.range nbytes).map (v.copy_sub_unaligned_byte start size)
  { byte_vec := sub_byte_vec
    last_byte_len := if size % 8 = 0 then 8 else size % 8 }

/-- `RawBitVector::as_u32`: the first (up to) four bytes packed big-endian into a `u32`
(precondition in Rust: at most 4 bytes). -/
def RawBitVector.as_u32 (v : RawBitVector) : Nat :=
  let byte0 := v.byte_vec.getD 0 0
  let byte1 := v.byte_vec.getD 1 0
  let byte2 := v.byte_vec.getD 2 0
  let byte3 := v.byte_vec.getD 3 0
  (byte0 <<< 24) ||| (byte1 <<< 16) ||| (byte2 <<< 8) ||| byte3

/-- Modelled from the spec: the view-variant `RawBitVector` (`RawBitVector::new` with a
first-byte offset, `len`, `clone_sub`) used by `src/fid/fid.rs` is not part of the
source snapshot; §9 of the spec states the view form is a lightweight sub-range over the
owning form, and `fid.rs` only ever builds it with offset 0 over the whole buffer, so
`clone_sub` there is the owning `copy_sub` (`slice(i, size)` per spec §4.2: "a bit vector
over `[i, i+size)`; may be a copy or a view"). -/
def RawBitVector.clone_sub (v : RawBitVector) (i size : Nat) : RawBitVector :=
  v.copy_sub i size

/-- Modelled from the spec: `len` of the missing view variant coincides with the owning
variant's `length` (offset 0, whole buffer). -/
def RawBitVector.len (v : RawBitVector) : Nat := v.length

/-- `PopcountTable` from `src/internal_data_structure/popcount_table.rs`: entry `x` of
`table` is `x.count_ones()` for `x ∈ [0, 2^bit_length)`. -/
structure PopcountTable where
  bit_length : Nat
  table : List Nat

/-- `PopcountTable::new`. -/
def PopcountTable.new (bit_length : Nat) : PopcountTable :=
  ⟨bit_length, (List.range (2 ^ bit_length)).map countOnes⟩

/-- `PopcountTable::popcount` (the Rust assert `target < 2^bit_length` is a side
condition of the theorems; in range the lookup is a plain index). -/
def PopcountTable.popcount (t : PopcountTable) (target : Nat) : Nat :=
  t.table.getD target 0

/-- `Block` from `src/succinct_bit_vector/block.rs`: cumulative in-chunk popcount. -/
structure Block where
  value : Nat
  length : Nat
  deriving Repr, DecidableEq

/-- `Blocks`: the blocks of one chunk. -/
structure Blocks where
  blocks : List Block
  blocks_cnt : Nat
  deriving Repr, DecidableEq

/-- `Chunk`: cumulative popcount from bit 0 through the chunk's last bit (after the
sequential pass of `Chunks::new`). -/
structure Chunk where
  value : Nat
  length : Nat
  blocks : Blocks
  deriving Repr, DecidableEq

/-- `Chunks`: the chunk directory. -/
structure Chunks where
  chunks : List Chunk
  chunks_cnt : Nat
  deriving Repr, DecidableEq

/-- `Chunks::calc_chunk_size`: `(⌊log₂ N⌋)²`, at least 1.  The Rust source computes
`⌊log₂ N⌋` through `f64::log2`, which agrees with `Nat.log2` on every representable
input. -/
def Chunks.calc_chunk_size (n : Nat) : Nat :=
  let lg2 := Nat.log2 n
  let sz := lg2 * lg2
  if sz = 0 then 1 else sz

/-- `Chunks::calc_chunks_cnt`: `⌈N / chunk_size⌉` written as the Rust source does. -/
def Chunks.calc_chunks_cnt (n : Nat) : Nat :=
  n / Chunks.calc_chunk_size n + if n % Chunks.calc_chunk_size n = 0 then 0 else 1

/-- `Blocks::calc_block_size`: `⌊log₂ N⌋ / 2`, at least 1. -/
def Blocks.calc_block_size (n : Nat) : Nat :=
  let lg2 := Nat.log2 n
  let sz := lg2 / 2
  if sz = 0 then 1 else sz

/-- The `this_block_size` computation of `Blocks::new`: a full `block_size` when the rest
of the vector is long enough, the remaining `n - i_rbv` bits otherwise. -/
def Blocks.this_block_size (n block_size i_rbv : Nat) : Nat :=
  if n - i_rbv ≥ block_size then block_size else n - i_rbv

/-- The loop body of `Blocks::new` (from `src/succinct_bit_vector/blocks.rs`), unrolled:
`Blocks.build rbv i_chunk k` is the state of the `blocks` vector after `k` iterations;
iteration `k` (Rust's `i_block = k`) appends one block whose value adds the popcount of
the block's bits to the previous block's cumulative value. -/
def Blocks.build (rbv : RawBitVector) (i_chunk : Nat) : Nat → List Block
  | 0 => []
  | k + 1 =>
    let prev := Blocks.build rbv i_chunk k
    let n := rbv.length
    let chunk_size := Chunks.calc_chunk_size n
    let block_size := Blocks.calc_block_size n
    let i_rbv := i_chunk * chunk_size + k * block_size
    let this_block_size := Blocks.this_block_size n block_size i_rbv
    let popcount_in_block := (rbv.copy_sub i_rbv this_block_size).popcount
    let value := popcount_in_block +
      (match prev.getLast? with
       | some block_left => block_left.value
       | none => 0)
    prev ++ [⟨value, this_block_size⟩]

/-- `Blocks::new`. -/
def Blocks.new (rbv : RawBitVector) (i_chunk this_chunk_size : Nat) : Blocks :=
  let block_size := Blocks.calc_block_size rbv.length
  let blocks_cnt := this_chunk_size / block_size +
    (if this_chunk_size % block_size = 0 then 0 else 1)
  ⟨Blocks.build rbv i_chunk blocks_cnt, blocks_cnt⟩

/-- `Blocks::access` without its assert; the assert itself is `Blocks.access_assert`. -/
def Blocks.access (b : Blocks) (i : Nat) : Block :=
  b.blocks.getD i ⟨0, 0⟩

/-- The assert guarding `Blocks::access(i)` in the source: `i <= self.blocks_cnt`. -/
def Blocks.access_assert (b : Blocks) (i : Nat) : Bool :=
  i ≤ b.blocks_cnt

/-- `Chunk::new` (from `src/fid/chunk.rs`). -/
def Chunk.new (value length : Nat) (rbv : RawBitVector) (i_chunk : Nat) : Chunk :=
  ⟨value, length, Blocks.new rbv i_chunk length⟩

/-- `Chunk::value`. -/
def Chunk.value' (c : Chunk) : Nat := c.value

/-- The sequential pass of `Chunks::new`: turn per-chunk popcounts into cumulative
values (`chunks[i].value += chunks[i-1].value` in order). -/
def Chunks.accumulate (acc : Nat) : List Chunk → List Chunk
  | [] => []
  | c :: rest => ⟨c.value + acc, c.length, c.blocks⟩ :: Chunks.accumulate (c.value + acc) rest

/-- The `this_chunk_size` computation of `Chunks::new`: a full `chunk_size` except for
the last chunk, which gets `n % chunk_size` (or `chunk_size` when that is 0). -/
def Chunks.this_chunk_size (n chunk_size chunks_cnt i_chunk : Nat) : Nat :=
  if i_chunk = chunks_cnt - 1 then
    (if n % chunk_size = 0 then chunk_size else n % chunk_size)
  else chunk_size

/-- The parallel phase of `Chunks::new`, one chunk per `i_chunk`: the popcount of the
chunk's own bits together with that chunk's blocks. -/
def Chunks.phase1_chunk (rbv : RawBitVector) (i_chunk : Nat) : Chunk :=
  let n := rbv.len
  let chunk_size := Chunks.calc_chunk_size n
  let chunks_cnt := Chunks.calc_chunks_cnt n
  let this_chunk_size := Chunks.this_chunk_size n chunk_size chunks_cnt i_chunk
  let chunk_rbv := rbv.clone_sub (i_chunk * chunk_size) this_chunk_size
  Chunk.new chunk_rbv.popcount this_chunk_size rbv i_chunk

/-- `Chunks::new` (from `src/fid/chunks.rs`): the parallel phase computes, independently
per chunk, the popcount of the chunk's bits plus that chunk's blocks; the sequential
phase prefix-sums the chunk values. -/
def Chunks.new (rbv : RawBitVector) : Chunks :=
  let chunks_cnt := Chunks.calc_chunks_cnt rbv.len
  let phase1 := (List.range chunks_cnt).map (Chunks.phase1_chunk rbv)
  ⟨Chunks.accumulate 0 phase1, chunks_cnt⟩

/-- `Chunks::access` without its assert; the assert itself is `Chunks.access_assert`. -/
def Chunks.access (c : Chunks) (i : Nat) : Chunk :=
  c.chunks.getD i ⟨0, 0, ⟨[], 0⟩⟩

/-- The assert guarding `Chunks::access(i)` in the source: `i <= self.chunks_cnt`. -/
def Chunks.access_assert (c : Chunks) (i : Nat) : Bool :=
  i ≤ c.chunks_cnt

/-- `Fid` from `src/fid/fid.rs`: raw byte buffer, bit length, chunk directory and
popcount table. -/
structure Fid where
  byte_vec : List Nat
  bit_len : Nat
  chunks : Chunks
  table : PopcountTable

/-- `Fid::build`. -/
def Fid.build (byte_vec : List Nat) (last_byte_len : Nat) : Fid :=
  let bit_len := (byte_vec.length - 1) * 8 + last_byte_len
  let rbv : RawBitVector := ⟨byte_vec, last_byte_len⟩
  let chunks := Chunks.new rbv
  let table := PopcountTable.new (Blocks.calc_block_size rbv.len)
  ⟨byte_vec, bit_len, chunks, table⟩

/-- `Fid::len`. -/
def Fid.len (f : Fid) : Nat := f.bit_len

/-- `Fid::rbv`: reconstruct the raw bit vector view over the stored bytes. -/
def Fid.rbv (f : Fid) : RawBitVector :=
  let last_byte_len_or_0 := f.bit_len % 8
  ⟨f.byte_vec, if last_byte_len_or_0 = 0 then 8 else last_byte_len_or_0⟩

/-- `Index<u64> for Fid`. -/
def Fid.index (f : Fid) (i : Nat) : Bool := f.rbv.access i

/-- `Fid::rank` translated clause by clause from `src/fid/fid.rs`. -/
def Fid.rank (f : Fid) (i : Nat) : Nat :=
  let n := f.len
  let chunk_size := Chunks.calc_chunk_size n
  let block_size := Blocks.calc_block_size n
  let i_chunk := i / chunk_size
  let rank_from_chunk :=
    if i_chunk = 0 then 0 else (f.chunks.access (i_chunk - 1)).value
  let chunk_right := f.chunks.access i_chunk
  let i_block := (i - i_chunk * chunk_size) / block_size
  let rank_from_block :=
    if i_block = 0 then 0 else (chunk_right.blocks.access (i_block - 1)).value
  let block_right := chunk_right.blocks.access i_block
  let pos_block_start := i_chunk * chunk_size + i_block * block_size
  let block_right_rbv := f.rbv.clone_sub pos_block_start block_right.length
  let block_right_as_u32 := block_right_rbv.as_u32
  let bits_to_use := i - pos_block_start + 1
  let block_bits := block_right_as_u32 >>> (32 - bits_to_use)
  let rank_from_table := f.table.popcount block_bits
  rank_from_chunk + rank_from_block + rank_from_table

/-- `Fid::rank0`. -/
def Fid.rank0 (f : Fid) (i : Nat) : Nat := (i + 1) - f.rank i

/-- The binary-search loop shared by `Fid::select` and `Fid::select0` (`while ok - ng > 1`
over a rank function `g`).  The first argument bounds the number of iterations; each
iteration shrinks `ok - ng` by at least one, so fuel `ok - ng` always suffices (`select`
passes the bit length). -/
def Fid.searchLoop (g : Nat → Nat) (num : Nat) : Nat → Nat → Nat → Nat
  | 0, _, ok => ok
  | fuel + 1, ng, ok =>
    if ok - ng > 1 then
      let mid := (ok + ng) / 2
      if g mid ≥ num then Fid.searchLoop g num fuel ng mid
      else Fid.searchLoop g num fuel mid ok
    else ok

/-- `Fid::select` (the Rust assert `num <= n` is a side condition of the theorems). -/
def Fid.select (f : Fid) (num : Nat) : Option Nat :=
  let n := f.len
  if num = 0 ∨ (num = 1 ∧ f.index 0 = true) then some 0
  else if f.rank (n - 1) < num then none
  else some (Fid.searchLoop (fun i => f.rank i) num n 0 (n - 1))

/-- `Fid::select0`. -/
def Fid.select0 (f : Fid) (num : Nat) : Option Nat :=
  let n := f.len
  if num = 0 ∨ (num = 1 ∧ f.index 0 = false) then some 0
  else if f.rank0 (n - 1) < num then none
  else some (Fid.searchLoop (fun i => f.rank0 i) num n 0 (n - 1))

/-- The byte-packing fold of `From<&[bool]> for Fid`: `byte + (1 << (7 - i))` for each
set bit of one chunk of (at most) eight bools, tracked by its index `i`. -/
def byteFromAux (i : Nat) : List Bool → Nat
  | [] => 0
  | b :: rest => (if b then 2 ^ (7 - i) else 0) + byteFromAux (i + 1) rest

/-- One byte from up to eight bools, MSB-first. -/
def byteFrom (bits8 : List Bool) : Nat := byteFromAux 0 bits8

/-- `bits.chunks(8)` mapped through the byte-packing fold of `From<&[bool]> for Fid`. -/
def toByteVec : List Bool → List Nat
  | [] => []
  | [a] => [byteFrom [a]]
  | [a, b] => [byteFrom [a, b]]
  | [a, b, c] => [byteFrom [a, b, c]]
  | [a, b, c, d] => [byteFrom [a, b, c, d]]
  | [a, b, c, d, e] => [byteFrom [a, b, c, d, e]]
  | [a, b, c, d, e, f] => [byteFrom [a, b, c, d, e, f]]
  | [a, b, c, d, e, f, g] => [byteFrom [a, b, c, d, e, f, g]]
  | a :: b :: c :: d :: e :: f :: g :: h :: rest =>
    byteFrom [a, b, c, d, e, f, g, h] :: toByteVec rest

/-- `From<&[bool]> for Fid`: pack the bools into bytes and `build`.  The tracked
`last_byte_len` ends as the length of the final 8-chunk, i.e. `N % 8` (or 8). -/
def Fid.from_bools (bits : List Bool) : Fid :=
  Fid.build (toByteVec bits) (if bits.length % 8 = 0 then 8 else bits.length % 8)

/-- The `for (i, c) in str.enumerate { if c == '1' { set_bit i } }` loop of
`RawBitVector::from_bit_string`, with `i0` the index of the first remaining bit. -/
def setBits (v : RawBitVector) : List Bool → Nat → RawBitVector
  | [], _ => v
  | b :: rest, i0 => setBits (if b then v.set_bit i0 else v) rest (i0 + 1)

/-- `RawBitVector::from_bit_string` (on the parsed bit list). -/
def RawBitVector.from_bits (bits : List Bool) : RawBitVector :=
  setBits (RawBitVector.from_length bits.length) bits 0

/-- `SuccinctBitVectorBuilder::from_bit_string(bs).build()` (no extra `set_bit` calls):
materialise the raw bit vector from the bit string, then build the directory.  The
`rank`/`select` code of `SuccinctBitVector` is textually identical to `Fid`'s, so the
result is represented by the same `Fid` structure. -/
def SuccinctBitVector.from_bits (bits : List Bool) : Fid :=
  let rbv := RawBitVector.from_bits bits
  Fid.build rbv.byte_vec rbv.last_byte_len

/-- The per-prefix counter loop of `LoudsBuilder::validate_lbs`: checks
`cnt0 <= cnt1 + 1` after every character. -/
def checkPrefixes (cnt0 cnt1 : Nat) : List Bool → Bool
  | [] => true
  | b :: rest =>
    let cnt0' := if b then cnt0 else cnt0 + 1
    let cnt1' := if b then cnt1 + 1 else cnt1
    decide (cnt0' ≤ cnt1' + 1) && checkPrefixes cnt0' cnt1' rest

/-- `LoudsBuilder::validate_lbs` as a boolean: starts with "10", every prefix has
`count('0') ≤ count('1') + 1`, and the full string has `count('0') = count('1') + 1`
(`true` = all asserts pass). -/
def validate_lbs (s : List Bool) : Bool :=
  (match s with
   | true :: false :: _ => true
   | _ => false) &&
  checkPrefixes 0 0 s &&
  decide (s.count false = s.count true + 1)

/-- `Louds` from `src/louds`: a LOUDS tree over an LBS bit vector. -/
structure Louds where
  lbs : Fid

/-- `LoudsBuilder::from_bit_string(bs).build()`: `none` models the validation panic. -/
def Louds.from_bit_string (bits : List Bool) : Option Louds :=
  if validate_lbs bits then some ⟨SuccinctBitVector.from_bits bits⟩ else none

/-- `Louds::node_num_to_index`: `select(node_num)`; `none` models the
`assert!(node_num > 0)` and `expect` panics. -/
def Louds.node_num_to_index (l : Louds) (node_num : Nat) : Option Nat :=
  if node_num = 0 then none else l.lbs.select node_num

/-- `Louds::index_to_node_num`: `rank(index)` guarded by `validate_index`
(`LBS[index] = 1`); `none` models the panic. -/
def Louds.index_to_node_num (l : Louds) (index : Nat) : Option Nat :=
  if l.lbs.index index = true then some (l.lbs.rank index) else none

/-- The forward scan of `Louds::parent_to_children`: collect indices while
`lbs[i] = 1`, stop at the first 0.  In Rust the loop is unbounded and
`lbs.access i` panics when `i` reaches the LBS length; both the panic and fuel
exhaustion are modelled as `none` (`parent_to_children` passes fuel `len + 1`,
enough for every possible scan that stays in bounds). -/
def scanChildren (f : Fid) : Nat → Nat → Option (List Nat)
  | 0, _ => none
  | fuel + 1, i =>
    if i < f.len then
      if f.index i = true then (scanChildren f fuel (i + 1)).map (i :: ·)
      else some []
    else none

/-- `Louds::parent_to_children`. -/
def Louds.parent_to_children (l : Louds) (node_num : Nat) : Option (List Nat) :=
  if node_num = 0 then none
  else
    match l.lbs.select0 node_num with
    | none => none
    | some s => scanChildren l.lbs (l.lbs.len + 1) (s + 1)

/-! ## Specification-side counting functions -/

/-- Number of indices `j < k` whose bit is set in `v` — the specification-level rank. -/
def RawBitVector.onesBelow (v : RawBitVector) (k : Nat) : Nat :=
  (List.range k).countP (fun j => v.access j)

/-- Number of set bits of `v` in `[a, a + len)`. -/
def RawBitVector.onesIn (v : RawBitVector) (a len : Nat) : Nat :=
  (List.range len).countP (fun t => v.access (a + t))

/-- Number of indices `j ≤ i` with `bits[j] = 1` — the claim-level rank of a boolean
sequence. -/
def specRank (bits : List Bool) (i : Nat) : Nat :=
  (List.range (i + 1)).countP (fun j => bits.getD j false)

/-- Number of indices `j ≤ i` with `bits[j] = 0`. -/
def specRank0 (bits : List Bool) (i : Nat) : Nat :=
  (List.range (i + 1)).countP (fun j => !bits.getD j false)

/-- Number of indices `j < k` whose bit is clear in `v`. -/
def RawBitVector.zerosBelow (v : RawBitVector) (k : Nat) : Nat :=
  (List.range k).countP (fun j => !v.access j)

/-! ## Counting toolbox -/

theorem countP_range_add (a b : Nat) (p : Nat → Bool) :
    (List.range (a + b)).countP p
      = (List.range a).countP p + (List.range b).countP (fun t => p (a + t)) := by
  rw [List.range_add, List.countP_append, List.countP_map]
  rfl

theorem countP_range_succ (k : Nat) (p : Nat → Bool) :
    (List.range (k + 1)).countP p = (List.range k).countP p + (if p k then 1 else 0) := by
  rw [List.range_succ, List.countP_append]
  simp [List.countP_cons]

theorem countP_range_eq_sum (p : Nat → Bool) (n : Nat) :
    (List.range n).countP p = ∑ j ∈ Finset.range n, if p j then 1 else 0 := by
  induction n with
  | zero => simp
  | succ k ih =>
    rw [countP_range_succ, Finset.sum_range_succ, ih]

theorem countP_range_reflect (t : Nat) (p : Nat → Bool) :
    (List.range t).countP (fun q => p (t - 1 - q)) = (List.range t).countP p := by
  rw [countP_range_eq_sum, countP_range_eq_sum]
  exact Finset.sum_range_reflect (fun j => if p j then 1 else 0) t

theorem countP_range_mono (a b : Nat) (p : Nat → Bool) (h : a ≤ b) :
    (List.range a).countP p ≤ (List.range b).countP p := by
  obtain ⟨d, rfl⟩ := Nat.exists_eq_add_of_le h
  rw [countP_range_add]
  omega

/-! ## Bit-level lemmas -/

theorem countOnesAux_irrel (f1 : Nat) : ∀ f2 n, n < 2 ^ f1 → n < 2 ^ f2 →
    countOnesAux f1 n = countOnesAux f2 n := by
  induction f1 with
  | zero =>
    intro f2 n h1 _
    have hn : n = 0 := by simpa using h1
    subst hn
    cases f2 <;> simp [countOnesAux]
  | succ k ih =>
    intro f2 n h1 h2
    by_cases hn : n = 0
    · subst hn; cases f2 <;> simp [countOnesAux]
    · have hf2 : ∃ m, f2 = m + 1 := by
        cases f2 with
        | zero => exfalso; omega
        | succ m => exact ⟨m, rfl⟩
      obtain ⟨m, rfl⟩ := hf2
      simp only [countOnesAux, hn, if_false]
      have hd1 : n / 2 < 2 ^ k := by
        have : 2 ^ (k + 1) = 2 ^ k * 2 := by ring
        omega
      have hd2 : n / 2 < 2 ^ m := by
        have : 2 ^ (m + 1) = 2 ^ m * 2 := by ring
        omega
      rw [ih m (n / 2) hd1 hd2]

theorem countOnes_step (n : Nat) (hn : n ≠ 0) : countOnes n = n % 2 + countOnes (n / 2) := by
  unfold countOnes
  cases n with
  | zero => exact absurd rfl hn
  | succ m =>
    simp only [countOnesAux, hn, if_false]
    have h1 : (m + 1) / 2 < 2 ^ m := by
      have := Nat.lt_two_pow m
      omega
    have h2 : (m + 1) / 2 < 2 ^ ((m + 1) / 2) := Nat.lt_two_pow _
    rw [countOnesAux_irrel m ((m + 1) / 2) ((m + 1) / 2) h1 h2]

theorem countOnes_zero : countOnes 0 = 0 := rfl

theorem countOnes_eq_countP (k : Nat) : ∀ n, n < 2 ^ k →
    countOnes n = (List.range k).countP (fun q => n.testBit q) := by
  induction k with
  | zero =>
    intro n h
    have : n = 0 := by simpa using h
    subst this
    simp [countOnes_zero]
  | succ m ih =>
    intro n h
    by_cases hn : n = 0
    · subst hn
      simp [countOnes_zero, Nat.zero_testBit]
    · rw [countOnes_step n hn]
      have hsplit : (List.range (1 + m)).countP (fun q => n.testBit q)
          = (List.range 1).countP (fun q => n.testBit q)
            + (List.range m).countP (fun t => n.testBit (1 + t)) :=
        countP_range_add 1 m _
      rw [show m + 1 = 1 + m by omega, hsplit]
      have h0 : (List.range 1).countP (fun q => n.testBit q) = n % 2 := by
        have h1 : List.range 1 = [0] := rfl
        rw [h1, List.countP_cons, List.countP_nil, Nat.testBit_zero]
        have := Nat.mod_two_eq_zero_or_one n
        rcases this with h | h <;> simp [h]
      have hdiv : n / 2 < 2 ^ m := by
        have : 2 ^ (m + 1) = 2 ^ m * 2 := by ring
        omega
      have htail : (List.range m).countP (fun t => n.testBit (1 + t))
          = (List.range m).countP (fun q => (n / 2).testBit q) := by
        apply List.countP_congr
        intro t _
        rw [Nat.testBit_div_two, Nat.add_comm 1 t]
      rw [h0, htail, ih (n / 2) hdiv]

/-- A number below `2^k` has `countOnes` bounded by `k`. -/
theorem countOnes_le (k n : Nat) (h : n < 2 ^ k) : countOnes n ≤ k := by
  rw [countOnes_eq_countP k n h]
  calc (List.range k).countP _ ≤ (List.range k).length := List.countP_le_length _
  _ = k := List.length_range k

/-- Masking a byte with the single-bit mask `2^k` is nonzero iff bit `k` is set. -/
theorem and_pow_ne_zero (b k : Nat) : (b &&& 2 ^ k != 0) = b.testBit k := by
  rw [Nat.and_two_pow]
  cases h : b.testBit k <;> simp [h, Nat.pos_pow_of_pos]

theorem RawBitVector.access_testBit (v : RawBitVector) (i : Nat) :
    v.access i = (v.byte_vec.getD (i / 8) 0).testBit (7 - i % 8) := by
  have h8 : i % 8 < 8 := Nat.mod_lt _ (by omega)
  unfold RawBitVector.access
  rcases h : i % 8 with _ | _ | _ | _ | _ | _ | _ | _ | k
  · exact (show (128:Nat) = 2 ^ 7 by norm_num) ▸ and_pow_ne_zero _ 7
  · exact (show (64:Nat) = 2 ^ 6 by norm_num) ▸ and_pow_ne_zero _ 6
  · exact (show (32:Nat) = 2 ^ 5 by norm_num) ▸ and_pow_ne_zero _ 5
  · exact (show (16:Nat) = 2 ^ 4 by norm_num) ▸ and_pow_ne_zero _ 4
  · exact (show (8:Nat) = 2 ^ 3 by norm_num) ▸ and_pow_ne_zero _ 3
  · exact (show (4:Nat) = 2 ^ 2 by norm_num) ▸ and_pow_ne_zero _ 2
  · exact (show (2:Nat) = 2 ^ 1 by norm_num) ▸ and_pow_ne_zero _ 1
  · exact (show (1:Nat) = 2 ^ 0 by norm_num) ▸ and_pow_ne_zero _ 0
  · omega

theorem RawBitVector.set_bit_byte_vec (v : RawBitVector) (i : Nat) :
    (v.set_bit i).byte_vec
      = v.byte_vec.set (i / 8) ((v.byte_vec.getD (i / 8) 0) ||| 2 ^ (7 - i % 8)) := by
  have h8 : i % 8 < 8 := Nat.mod_lt _ (by omega)
  unfold RawBitVector.set_bit
  rcases h : i % 8 with _ | _ | _ | _ | _ | _ | _ | _ | k <;> first | rfl | omega

theorem RawBitVector.set_bit_last_byte_len (v : RawBitVector) (i : Nat) :
    (v.set_bit i).last_byte_len = v.last_byte_len := rfl

/-- Adding `2^m` does not change the bits below position `m`. -/
theorem testBit_add_two_pow_high (x m k : Nat) (h : k < m) :
    (2 ^ m + x).testBit k = x.testBit k := by
  rw [Nat.testBit_to_div_mod, Nat.testBit_to_div_mod]
  have hdvd : (2 ^ m + x) / 2 ^ k = x / 2 ^ k + 2 ^ (m - k) := by
    have hm : 2 ^ m = 2 ^ (m - k) * 2 ^ k := by
      rw [← pow_add]
      congr 1
      omega
    rw [hm, Nat.add_comm, Nat.add_mul_div_right _ _ (Nat.pos_pow_of_pos k (by omega))]
  have heven : 2 ^ (m - k) = 2 * 2 ^ (m - k - 1) := by
    rw [← pow_succ']
    congr 1
    omega
  have hmod : (x / 2 ^ k + 2 ^ (m - k)) % 2 = x / 2 ^ k % 2 := by
    rw [heven, Nat.add_mul_mod_self_left]
  rw [hdvd, hmod]

/-- A value in `[2^k, 2^(k+1))` has bit `k` set. -/
theorem testBit_of_between (x k : Nat) (h1 : 2 ^ k ≤ x) (h2 : x < 2 ^ (k + 1)) :
    x.testBit k = true := by
  rw [Nat.testBit_to_div_mod]
  have hq : x / 2 ^ k = 1 := by
    apply Nat.div_eq_of_lt_le
    · simpa using h1
    · have : 2 ^ (k + 1) = 2 * 2 ^ k := by ring
      omega
  simp [hq]

/-! ## Byte packing (`From<&[bool]> for Fid`) -/

theorem byteFromAux_lt (l : List Bool) : ∀ i, i + l.length ≤ 8 → byteFromAux i l < 2 ^ (8 - i) := by
  induction l with
  | nil =>
    intro i _
    exact Nat.pos_pow_of_pos _ (by omega)
  | cons b rest ih =>
    intro i hlen
    simp only [byteFromAux]
    have hrest : byteFromAux (i + 1) rest < 2 ^ (8 - (i + 1)) := by
      apply ih
      simp at hlen
      omega
    have hsplit : 2 ^ (8 - i) = 2 ^ (7 - i) + 2 ^ (7 - i) := by
      have h1 : 8 - i = (7 - i) + 1 := by simp at hlen; omega
      rw [h1]
      ring
    have h2 : 8 - (i + 1) = 7 - i := by omega
    rw [h2] at hrest
    split <;> omega

theorem byteFromAux_testBit (l : List Bool) : ∀ i r, i + l.length ≤ 8 → i ≤ r → r < 8 →
    (byteFromAux i l).testBit (7 - r) = l.getD (r - i) false := by
  induction l with
  | nil =>
    intro i r _ _ _
    simp [byteFromAux, Nat.zero_testBit]
  | cons b rest ih =>
    intro i r hlen hir hr8
    simp only [byteFromAux]
    have hlen' : (i + 1) + rest.length ≤ 8 := by simp at hlen; omega
    have hrest_lt : byteFromAux (i + 1) rest < 2 ^ (7 - i) := by
      have := byteFromAux_lt rest (i + 1) hlen'
      have h2 : 8 - (i + 1) = 7 - i := by omega
      rwa [h2] at this
    obtain heq | hlt := Nat.eq_or_lt_of_le hir
    · -- r = i: the freshly packed bit
      subst heq
      simp only [Nat.sub_self, List.getD_cons_zero]
      cases b with
      | true =>
        simp only [if_true]
        apply testBit_of_between
        · omega
        · have : 2 ^ (7 - i + 1) = 2 ^ (7 - i) + 2 ^ (7 - i) := by ring
          omega
      | false =>
        simp only [Bool.false_eq_true, if_false, Nat.zero_add]
        exact Nat.testBit_lt_two_pow hrest_lt
    · -- r > i: the bit lives in the tail
      have hbit : 7 - r < 7 - i := by omega
      have htail : ((if b then 2 ^ (7 - i) else 0) + byteFromAux (i + 1) rest).testBit (7 - r)
          = (byteFromAux (i + 1) rest).testBit (7 - r) := by
        cases b with
        | true => simp only [if_true]; exact testBit_add_two_pow_high _ _ _ hbit
        | false => simp
      rw [htail, ih (i + 1) r hlen' (by omega) hr8]
      have : r - i = (r - (i + 1)) + 1 := by omega
      rw [this]
      simp

theorem byteFrom_testBit (l : List Bool) (r : Nat) (hlen : l.length ≤ 8) (hr : r < 8) :
    (byteFrom l).testBit (7 - r) = l.getD r false := by
  have := byteFromAux_testBit l 0 r (by omega) (by omega) hr
  simpa [byteFrom] using this

theorem byteFrom_lt (l : List Bool) (hlen : l.length ≤ 8) : byteFrom l < 256 := by
  have := byteFromAux_lt l 0 (by omega)
  simpa [byteFrom] using this

/-- One unfolding step of the 8-at-a-time `toByteVec`. -/
theorem toByteVec_step (l : List Bool) (h : l ≠ []) :
    toByteVec l = byteFrom (l.take 8) :: toByteVec (l.drop 8) := by
  match l with
  | [] => exact absurd rfl h
  | [_] => rfl
  | [_, _] => rfl
  | [_, _, _] => rfl
  | [_, _, _, _] => rfl
  | [_, _, _, _, _] => rfl
  | [_, _, _, _, _, _] => rfl
  | [_, _, _, _, _, _, _] => rfl
  | _ :: _ :: _ :: _ :: _ :: _ :: _ :: _ :: _ => rfl

theorem toByteVec_length_le (m : Nat) : ∀ l : List Bool, l.length ≤ m →
    (toByteVec l).length = (l.length + 7) / 8 := by
  induction m with
  | zero =>
    intro l hl
    have : l = [] := List.length_eq_zero.mp (by omega)
    subst this
    simp [toByteVec]
  | succ k ih =>
    intro l hl
    by_cases hnil : l = []
    · subst hnil; simp [toByteVec]
    · rw [toByteVec_step l hnil, List.length_cons]
      have hlen : (l.drop 8).length = l.length - 8 := List.length_drop 8 l
      have hl1 : 1 ≤ l.length := by
        cases l with
        | nil => exact absurd rfl hnil
        | cons a t => simp
      by_cases h8 : l.length ≤ 8
      · have hd : l.drop 8 = [] := List.drop_eq_nil_of_le (by omega)
        rw [hd]
        simp [toByteVec]
        omega
      · rw [ih (l.drop 8) (by omega)]
        omega

theorem toByteVec_length (l : List Bool) : (toByteVec l).length = (l.length + 7) / 8 :=
  toByteVec_length_le l.length l (Nat.le_refl _)

theorem toByteVec_getD (k : Nat) : ∀ l : List Bool,
    (toByteVec l).getD k 0 = byteFrom ((l.drop (8 * k)).take 8) := by
  induction k with
  | zero =>
    intro l
    by_cases hnil : l = []
    · subst hnil; simp [toByteVec, byteFrom, byteFromAux]
    · rw [toByteVec_step l hnil]
      simp
  | succ k ih =>
    intro l
    by_cases hnil : l = []
    · subst hnil; simp [toByteVec, byteFrom, byteFromAux]
    · rw [toByteVec_step l hnil]
      have h1 : (byteFrom (l.take 8) :: toByteVec (l.drop 8)).getD (k + 1) 0
          = (toByteVec (l.drop 8)).getD k 0 := rfl
      rw [h1, ih (l.drop 8), List.drop_drop]
      have h2 : 8 + 8 * k = 8 * (k + 1) := by ring
      rw [h2]

theorem toByteVec_bytes_lt (l : List Bool) : ∀ b ∈ toByteVec l, b < 256 := by
  intro b hb
  have hk : ∃ k, k < (toByteVec l).length ∧ (toByteVec l).getD k 0 = b := by
    obtain ⟨k, hk, he⟩ := List.getElem_of_mem hb
    exact ⟨k, hk, by simp [List.getD, List.getElem?_eq_getElem hk, he]⟩
  obtain ⟨k, _, hke⟩ := hk
  rw [toByteVec_getD k l] at hke
  rw [← hke]
  exact byteFrom_lt _ (by simpa using List.length_take_le 8 _)

/-- `access` on the packed byte vector recovers the original bools (any `last_byte_len`). -/
theorem access_toByteVec (bits : List Bool) (lbl j : Nat) :
    RawBitVector.access ⟨toByteVec bits, lbl⟩ j = bits.getD j false := by
  rw [RawBitVector.access_testBit]
  show ((toByteVec bits).getD (j / 8) 0).testBit (7 - j % 8) = bits.getD j false
  rw [toByteVec_getD (j / 8) bits]
  have h8 : j % 8 < 8 := Nat.mod_lt _ (by omega)
  rw [byteFrom_testBit _ (j % 8) (by simpa using List.length_take_le 8 _) h8]
  have h1 : ((bits.drop (8 * (j / 8))).take 8).getD (j % 8) false
      = (bits.drop (8 * (j / 8))).getD (j % 8) false := by
    simp [List.getD, List.getElem?_take, h8]
  rw [h1]
  have h2 : (bits.drop (8 * (j / 8))).getD (j % 8) false
      = bits.getD (8 * (j / 8) + j % 8) false := by
    simp [List.getD, List.getElem?_drop]
  rw [h2]
  congr 1
  omega

/-! ## Popcount of a whole buffer -/

theorem foldl_countOnes (l : List Nat) : ∀ acc,
    l.foldl (fun popcnt byte => countOnes byte + popcnt) acc = acc + (l.map countOnes).sum := by
  induction l with
  | nil => intro acc; simp
  | cons b rest ih =>
    intro acc
    rw [List.foldl_cons, ih, List.map_cons, List.sum_cons]
    omega

theorem popcount_eq_sum (v : RawBitVector) :
    v.popcount = (v.byte_vec.map countOnes).sum := by
  unfold RawBitVector.popcount
  rw [foldl_countOnes]
  omega

/-- `countP` respects pointwise equality of boolean predicates. -/
theorem countP_congr_eq {α : Type} (l : List α) (p q : α → Bool) (h : ∀ a ∈ l, p a = q a) :
    l.countP p = l.countP q :=
  List.countP_congr (fun a ha => by rw [h a ha])

theorem countOnes_byte (b : Nat) (hb : b < 256) :
    countOnes b = (List.range 8).countP (fun r => b.testBit (7 - r)) := by
  rw [countOnes_eq_countP 8 b hb, ← countP_range_reflect 8 (fun q => b.testBit q)]

theorem access_cons (b : Nat) (rest : List Nat) (lbl t : Nat) :
    RawBitVector.access ⟨b :: rest, lbl⟩ (8 + t) = RawBitVector.access ⟨rest, lbl⟩ t := by
  rw [RawBitVector.access_testBit, RawBitVector.access_testBit]
  have h1 : (8 + t) / 8 = t / 8 + 1 := by omega
  have h2 : (8 + t) % 8 = t % 8 := by omega
  rw [h1, h2]
  rfl

theorem access_head (b : Nat) (rest : List Nat) (lbl j : Nat) (hj : j < 8) :
    RawBitVector.access ⟨b :: rest, lbl⟩ j = b.testBit (7 - j) := by
  rw [RawBitVector.access_testBit]
  have h1 : j / 8 = 0 := by omega
  have h2 : j % 8 = j := by omega
  rw [h1, h2]
  rfl

theorem popcount_eq_countP (l : List Nat) : ∀ lbl, (∀ b ∈ l, b < 256) →
    RawBitVector.popcount ⟨l, lbl⟩
      = (List.range (8 * l.length)).countP (fun j => RawBitVector.access ⟨l, lbl⟩ j) := by
  induction l with
  | nil => intro lbl _; rw [popcount_eq_sum]; simp
  | cons b rest ih =>
    intro lbl hb
    rw [popcount_eq_sum, List.map_cons, List.sum_cons]
    have hlen : 8 * (b :: rest).length = 8 + 8 * rest.length := by
      simp [List.length_cons]
      ring
    rw [hlen, countP_range_add 8 (8 * rest.length)]
    have hhead : (List.range 8).countP (fun j => RawBitVector.access ⟨b :: rest, lbl⟩ j)
        = countOnes b := by
      rw [countOnes_byte b (hb b (by simp))]
      apply countP_congr_eq
      intro j hj
      exact access_head b rest lbl j (List.mem_range.mp hj)
    have htail : (List.range (8 * rest.length)).countP
          (fun t => RawBitVector.access ⟨b :: rest, lbl⟩ (8 + t))
        = (List.range (8 * rest.length)).countP (fun j => RawBitVector.access ⟨rest, lbl⟩ j) := by
      apply countP_congr_eq
      intro t _
      rw [access_cons]
    have hrest := ih lbl (fun x hx => hb x (List.mem_cons_of_mem _ hx))
    rw [popcount_eq_sum] at hrest
    rw [hhead, htail, ← hrest]

/-! ## `set_bit` and `from_bit_string` -/

theorem RawBitVector.set_bit_length (v : RawBitVector) (i : Nat) :
    (v.set_bit i).byte_vec.length = v.byte_vec.length := by
  rw [RawBitVector.set_bit_byte_vec]
  exact List.length_set ..

theorem RawBitVector.set_bit_access (v : RawBitVector) (i j : Nat)
    (hv : i / 8 < v.byte_vec.length) :
    (v.set_bit i).access j = (v.access j || decide (j = i)) := by
  rw [RawBitVector.access_testBit, RawBitVector.access_testBit, RawBitVector.set_bit_byte_vec]
  show ((v.byte_vec.set (i / 8) _).getD (j / 8) 0).testBit (7 - j % 8) = _
  by_cases hbyte : j / 8 = i / 8
  · have hset : (v.byte_vec.set (i / 8)
        ((v.byte_vec.getD (i / 8) 0) ||| 2 ^ (7 - i % 8))).getD (j / 8) 0
        = (v.byte_vec.getD (i / 8) 0) ||| 2 ^ (7 - i % 8) := by
      rw [hbyte]
      simp [List.getD, List.getElem?_set, hv]
    rw [hset, Nat.testBit_or, Nat.testBit_two_pow, hbyte]
    by_cases hij : j = i
    · subst hij
      simp
    · have hne : i % 8 ≠ j % 8 := by
        intro hmod
        apply hij
        omega
      have h8i : i % 8 < 8 := Nat.mod_lt _ (by omega)
      have h8j : j % 8 < 8 := Nat.mod_lt _ (by omega)
      have : ¬(7 - i % 8 = 7 - j % 8) := by omega
      simp [this, hij]
  · have hset : (v.byte_vec.set (i / 8)
        ((v.byte_vec.getD (i / 8) 0) ||| 2 ^ (7 - i % 8))).getD (j / 8) 0
        = v.byte_vec.getD (j / 8) 0 := by
      simp [List.getD, List.getElem?_set_ne (Ne.symm hbyte)]
    have hij : j ≠ i := by
      intro h
      exact hbyte (by rw [h])
    rw [hset]
    simp [hij]

/-- Any entry read out of a `u8` buffer (in range or the 0 default) is below 256. -/
theorem getD_lt_256 (l : List Nat) (hb : ∀ b ∈ l, b < 256) (idx : Nat) : l.getD idx 0 < 256 := by
  by_cases h : idx < l.length
  · have hg : l.getD idx 0 = l[idx] := by simp [List.getD, List.getElem?_eq_getElem h]
    rw [hg]
    exact hb _ (List.getElem_mem ..)
  · rw [List.getD_eq_default _ _ (by omega)]
    omega

theorem RawBitVector.set_bit_bytes_lt (v : RawBitVector) (i : Nat)
    (hb : ∀ b ∈ v.byte_vec, b < 256) : ∀ b ∈ (v.set_bit i).byte_vec, b < 256 := by
  intro b hmem
  rw [RawBitVector.set_bit_byte_vec] at hmem
  rcases List.mem_or_eq_of_mem_set hmem with h | h
  · exact hb b h
  · subst h
    have h1 : v.byte_vec.getD (i / 8) 0 < 2 ^ 8 := by
      have := getD_lt_256 v.byte_vec hb (i / 8)
      omega
    have h2 : (2:Nat) ^ (7 - i % 8) < 2 ^ 8 := by
      calc (2:Nat) ^ (7 - i % 8) ≤ 2 ^ 7 := Nat.pow_le_pow_right (by omega) (by omega)
      _ < 2 ^ 8 := by norm_num
    have hor := Nat.or_lt_two_pow h1 h2
    exact lt_of_lt_of_eq hor (by norm_num)

theorem setBits_byte_len (l : List Bool) : ∀ (v : RawBitVector) (i0 : Nat),
    (setBits v l i0).byte_vec.length = v.byte_vec.length := by
  induction l with
  | nil => intro v i0; rfl
  | cons b rest ih =>
    intro v i0
    show (setBits (if b then v.set_bit i0 else v) rest (i0 + 1)).byte_vec.length = _
    rw [ih]
    cases b <;> simp [RawBitVector.set_bit_length]

theorem setBits_last_byte_len (l : List Bool) : ∀ (v : RawBitVector) (i0 : Nat),
    (setBits v l i0).last_byte_len = v.last_byte_len := by
  induction l with
  | nil => intro v i0; rfl
  | cons b rest ih =>
    intro v i0
    show (setBits (if b then v.set_bit i0 else v) rest (i0 + 1)).last_byte_len = _
    rw [ih]
    cases b <;> simp [RawBitVector.set_bit_last_byte_len]

theorem setBits_bytes_lt (l : List Bool) : ∀ (v : RawBitVector) (i0 : Nat),
    (∀ b ∈ v.byte_vec, b < 256) → ∀ b ∈ (setBits v l i0).byte_vec, b < 256 := by
  induction l with
  | nil => intro v i0 hb; exact hb
  | cons b rest ih =>
    intro v i0 hb
    show ∀ x ∈ (setBits (if b then v.set_bit i0 else v) rest (i0 + 1)).byte_vec, x < 256
    apply ih
    cases b
    · simpa using hb
    · simpa using RawBitVector.set_bit_bytes_lt v i0 hb

theorem setBits_access (l : List Bool) : ∀ (v : RawBitVector) (i0 j : Nat),
    i0 + l.length ≤ 8 * v.byte_vec.length →
    (setBits v l i0).access j = (v.access j || (decide (i0 ≤ j) && l.getD (j - i0) false)) := by
  induction l with
  | nil =>
    intro v i0 j _
    simp [setBits]
  | cons b rest ih =>
    intro v i0 j hrange
    have hcons : (b :: rest).length = rest.length + 1 := rfl
    show (setBits (if b then v.set_bit i0 else v) rest (i0 + 1)).access j = _
    have hlen' : (i0 + 1) + rest.length ≤ 8 * (if b then v.set_bit i0 else v).byte_vec.length := by
      cases b <;> simp [RawBitVector.set_bit_length] <;> omega
    rw [ih _ (i0 + 1) j hlen']
    have hi08 : i0 / 8 < v.byte_vec.length := by
      have : i0 < 8 * v.byte_vec.length := by omega
      omega
    have hv : (if b then v.set_bit i0 else v).access j
        = (v.access j || (b && decide (j = i0))) := by
      cases b
      · simp
      · simp [RawBitVector.set_bit_access v i0 j hi08]
    rw [hv]
    by_cases hj0 : j < i0
    · have h1 : ¬(i0 ≤ j) := by omega
      have h2 : ¬(i0 + 1 ≤ j) := by omega
      have h3 : j ≠ i0 := by omega
      simp [h1, h2, h3]
    · by_cases hje : j = i0
      · subst hje
        have h2 : ¬(j + 1 ≤ j) := by omega
        simp [h2]
      · have h1 : i0 ≤ j := by omega
        have h2 : i0 + 1 ≤ j := by omega
        have h4 : j - i0 = (j - (i0 + 1)) + 1 := by omega
        rw [h4]
        simp [h1, h2, hje, List.getD_cons_succ]

theorem from_length_access (n j : Nat) : (RawBitVector.from_length n).access j = false := by
  rw [RawBitVector.access_testBit]
  show ((List.replicate ((n - 1) / 8 + 1) 0).getD (j / 8) 0).testBit (7 - j % 8) = false
  have h0 : (List.replicate ((n - 1) / 8 + 1) 0).getD (j / 8) 0 = 0 := by
    by_cases h : j / 8 < (n - 1) / 8 + 1
    · simp [List.getD, List.getElem?_replicate, h]
    · rw [List.getD_eq_default]
      simp
      omega
  rw [h0]
  exact Nat.zero_testBit _

theorem from_bits_access (bits : List Bool) (j : Nat) :
    (RawBitVector.from_bits bits).access j = bits.getD j false := by
  unfold RawBitVector.from_bits
  rw [setBits_access bits _ 0 j]
  · rw [from_length_access]
    simp
  · show 0 + bits.length ≤ 8 * (List.replicate ((bits.length - 1) / 8 + 1) 0).length
    simp
    omega

theorem from_bits_byte_len (bits : List Bool) :
    (RawBitVector.from_bits bits).byte_vec.length = (bits.length - 1) / 8 + 1 := by
  unfold RawBitVector.from_bits
  rw [setBits_byte_len]
  simp [RawBitVector.from_length]

theorem from_bits_last_byte_len (bits : List Bool) :
    (RawBitVector.from_bits bits).last_byte_len
      = if bits.length % 8 = 0 then 8 else bits.length % 8 := by
  unfold RawBitVector.from_bits
  rw [setBits_last_byte_len]
  rfl

theorem from_bits_bytes_lt (bits : List Bool) :
    ∀ b ∈ (RawBitVector.from_bits bits).byte_vec, b < 256 := by
  unfold RawBitVector.from_bits
  apply setBits_bytes_lt
  intro b hb
  have := List.eq_of_mem_replicate hb
  omega

/-! ## `copy_sub` correctness -/

theorem testBit_shiftRL (x d q : Nat) :
    ((x >>> d) <<< d).testBit q = (decide (d ≤ q) && x.testBit q) := by
  rw [Nat.testBit_shiftLeft, Nat.testBit_shiftRight]
  by_cases h : d ≤ q
  · have hq : d + (q - d) = q := by omega
    rw [hq]
  · simp [h]

theorem aligned_byte_testBit (v : RawBitVector) (start size t r : Nat)
    (halign : start % 8 = 0) (ht8 : 8 * t < size) (hr : r < 8) :
    (v.copy_sub_aligned_byte start size t).testBit (7 - r)
      = if 8 * t + r < size then v.access (start + (8 * t + r)) else false := by
  unfold RawBitVector.copy_sub_aligned_byte
  simp only []
  rw [testBit_shiftRL]
  have hsub : start + size - (start + 8 * t) = size - 8 * t := by omega
  rw [hsub]
  have hacc : v.access (start + (8 * t + r))
      = (v.byte_vec.getD ((start + 8 * t) / 8) 0).testBit (7 - r) := by
    rw [RawBitVector.access_testBit]
    have h1 : (start + (8 * t + r)) / 8 = (start + 8 * t) / 8 := by omega
    have h2 : (start + (8 * t + r)) % 8 = r := by omega
    rw [h1, h2]
  by_cases hcase : size - 8 * t ≥ 8
  · have hd : (if size - 8 * t ≥ 8 then 0 else 8 - (size - 8 * t)) = 0 := if_pos hcase
    have hin : 8 * t + r < size := by omega
    rw [hd, if_pos hin, hacc]
    simp
  · have hd : (if size - 8 * t ≥ 8 then 0 else 8 - (size - 8 * t)) = 8 - (size - 8 * t) :=
      if_neg hcase
    rw [hd]
    by_cases hin : 8 * t + r < size
    · have hdec : 8 - (size - 8 * t) ≤ 7 - r := by omega
      rw [if_pos hin, hacc]
      simp [hdec]
    · have hdec : ¬(8 - (size - 8 * t) ≤ 7 - r) := by omega
      rw [if_neg hin]
      simp [hdec]

theorem unaligned_byte_testBit (v : RawBitVector) (start size t r : Nat)
    (hb : ∀ b ∈ v.byte_vec, b < 256)
    (halign : start % 8 ≠ 0) (ht8 : 8 * t < size) (hr : r < 8) :
    (v.copy_sub_unaligned_byte start size t).testBit (7 - r)
      = if 8 * t + r < size then v.access (start + (8 * t + r)) else false := by
  unfold RawBitVector.copy_sub_unaligned_byte
  simp only []
  rw [testBit_shiftRL]
  have hsub : start + size - (start + 8 * t) = size - 8 * t := by omega
  rw [hsub]
  have hl1 : 1 ≤ start % 8 := by omega
  have hl7 : start % 8 ≤ 7 := by omega
  -- the unmasked spliced byte
  have hb2lt : (if (start + 8 * t) / 8 + 1 < v.byte_vec.length then
      v.byte_vec.getD ((start + 8 * t) / 8 + 1) 0 else 0) < 256 := by
    split
    · exact getD_lt_256 _ hb _
    · omega
  have hb2eq : (if (start + 8 * t) / 8 + 1 < v.byte_vec.length then
      v.byte_vec.getD ((start + 8 * t) / 8 + 1) 0 else 0)
      = v.byte_vec.getD ((start + 8 * t) / 8 + 1) 0 := by
    split
    · rfl
    · rw [List.getD_eq_default _ _ (by omega)]
  have hcopied : (((v.byte_vec.getD ((start + 8 * t) / 8) 0 <<< (start % 8)) % 256) |||
        ((if (start + 8 * t) / 8 + 1 < v.byte_vec.length then
          v.byte_vec.getD ((start + 8 * t) / 8 + 1) 0 else 0) >>> (8 - start % 8))).testBit (7 - r)
      = v.access (start + (8 * t + r)) := by
    rw [Nat.testBit_or, show (256:Nat) = 2 ^ 8 by norm_num,
      Nat.testBit_mod_two_pow, Nat.testBit_shiftLeft, Nat.testBit_shiftRight, hb2eq]
    have h78 : (7 - r) < 8 := by omega
    by_cases hcase2 : start % 8 + r < 8
    · -- bit comes from byte1
      have hle : start % 8 ≤ 7 - r := by omega
      have hbit1 : 7 - r - start % 8 = 7 - (start % 8 + r) := by omega
      have hhigh : 8 ≤ 8 - start % 8 + (7 - r) := by omega
      have hbit2false : (v.byte_vec.getD ((start + 8 * t) / 8 + 1) 0).testBit
          (8 - start % 8 + (7 - r)) = false := by
        apply Nat.testBit_lt_two_pow
        calc v.byte_vec.getD ((start + 8 * t) / 8 + 1) 0 < 256 := getD_lt_256 _ hb _
        _ = 2 ^ 8 := by norm_num
        _ ≤ 2 ^ (8 - start % 8 + (7 - r)) := Nat.pow_le_pow_right (by omega) hhigh
      rw [hbit1, hbit2false, RawBitVector.access_testBit]
      have hidx : (start + (8 * t + r)) / 8 = (start + 8 * t) / 8 := by omega
      have hmod : (start + (8 * t + r)) % 8 = start % 8 + r := by omega
      rw [hidx, hmod]
      simp [h78, hle]
    · -- bit comes from byte2
      have hnle : ¬(start % 8 ≤ 7 - r) := by omega
      have hbit2 : 8 - start % 8 + (7 - r) = 7 - (start % 8 + r - 8) := by omega
      rw [hbit2, RawBitVector.access_testBit]
      have hidx : (start + (8 * t + r)) / 8 = (start + 8 * t) / 8 + 1 := by omega
      have hmod : (start + (8 * t + r)) % 8 = start % 8 + r - 8 := by omega
      rw [hidx, hmod]
      simp [hnle]
  rw [hcopied]
  by_cases hcase : size - 8 * t ≥ 8
  · have hd : (if size - 8 * t ≥ 8 then 0 else 8 - (size - 8 * t)) = 0 := if_pos hcase
    have hin : 8 * t + r < size := by omega
    rw [hd, if_pos hin]
    simp
  · have hd : (if size - 8 * t ≥ 8 then 0 else 8 - (size - 8 * t)) = 8 - (size - 8 * t) :=
      if_neg hcase
    rw [hd]
    by_cases hin : 8 * t + r < size
    · have hdec : 8 - (size - 8 * t) ≤ 7 - r := by omega
      rw [if_pos hin]
      simp [hdec]
    · have hdec : ¬(8 - (size - 8 * t) ≤ 7 - r) := by omega
      rw [if_neg hin]
      simp [hdec]

theorem copy_sub_byte_vec_length (v : RawBitVector) (i size : Nat) :
    (v.copy_sub i size).byte_vec.length = (size + 7) / 8 := by
  unfold RawBitVector.copy_sub
  simp only []
  split <;> simp

theorem copy_sub_getD_testBit (v : RawBitVector) (i size t r : Nat)
    (hb : ∀ b ∈ v.byte_vec, b < 256)
    (ht : t < (size + 7) / 8) (hr : r < 8) :
    ((v.copy_sub i size).byte_vec.getD t 0).testBit (7 - r)
      = if 8 * t + r < size then v.access (i + (8 * t + r)) else false := by
  have ht8 : 8 * t < size := by omega
  unfold RawBitVector.copy_sub
  simp only []
  by_cases halign : i % 8 = 0
  · rw [if_pos halign]
    have hg : ((List.range ((size + 7) / 8)).map (v.copy_sub_aligned_byte i size)).getD t 0
        = v.copy_sub_aligned_byte i size t := by
      simp [List.getD, List.getElem?_map, List.getElem?_range ht]
    rw [hg]
    exact aligned_byte_testBit v i size t r halign ht8 hr
  · rw [if_neg halign]
    have hg : ((List.range ((size + 7) / 8)).map (v.copy_sub_unaligned_byte i size)).getD t 0
        = v.copy_sub_unaligned_byte i size t := by
      simp [List.getD, List.getElem?_map, List.getElem?_range ht]
    rw [hg]
    exact unaligned_byte_testBit v i size t r hb halign ht8 hr

theorem copy_sub_access (v : RawBitVector) (i size j : Nat)
    (hb : ∀ b ∈ v.byte_vec, b < 256) (hj : j < size) :
    (v.copy_sub i size).access j = v.access (i + j) := by
  rw [RawBitVector.access_testBit]
  have ht : j / 8 < (size + 7) / 8 := by omega
  have h8 : j % 8 < 8 := by omega
  rw [copy_sub_getD_testBit v i size (j / 8) (j % 8) hb ht h8]
  have hjj : 8 * (j / 8) + j % 8 = j := by omega
  rw [hjj, if_pos hj]

theorem copy_sub_access_high (v : RawBitVector) (i size j : Nat)
    (hb : ∀ b ∈ v.byte_vec, b < 256) (hjs : size ≤ j) :
    (v.copy_sub i size).access j = false := by
  rw [RawBitVector.access_testBit]
  by_cases ht : j / 8 < (size + 7) / 8
  · have h8 : j % 8 < 8 := by omega
    rw [copy_sub_getD_testBit v i size (j / 8) (j % 8) hb ht h8]
    have hjj : 8 * (j / 8) + j % 8 = j := by omega
    rw [hjj, if_neg (by omega)]
  · have hlen : (v.copy_sub i size).byte_vec.length ≤ j / 8 := by
      rw [copy_sub_byte_vec_length]
      omega
    rw [List.getD_eq_default _ _ hlen]
    exact Nat.zero_testBit _

theorem copy_sub_bytes_lt (v : RawBitVector) (i size : Nat)
    (hb : ∀ b ∈ v.byte_vec, b < 256) :
    ∀ b ∈ (v.copy_sub i size).byte_vec, b < 256 := by
  intro b hmem
  unfold RawBitVector.copy_sub at hmem
  simp only [] at hmem
  have hshiftRL_le : ∀ x d : Nat, (x >>> d) <<< d ≤ x := by
    intro x d
    rw [Nat.shiftLeft_eq, Nat.shiftRight_eq_div_pow]
    exact Nat.div_mul_le_self x (2 ^ d)
  split at hmem
  · obtain ⟨t, _, rfl⟩ := List.mem_map.mp hmem
    unfold RawBitVector.copy_sub_aligned_byte
    simp only []
    calc _ ≤ v.byte_vec.getD ((i + 8 * t) / 8) 0 := hshiftRL_le _ _
    _ < 256 := getD_lt_256 _ hb _
  · obtain ⟨t, _, rfl⟩ := List.mem_map.mp hmem
    unfold RawBitVector.copy_sub_unaligned_byte
    simp only []
    have hcopied : ((v.byte_vec.getD ((i + 8 * t) / 8) 0 <<< (i % 8)) % 256) |||
        ((if (i + 8 * t) / 8 + 1 < v.byte_vec.length then
          v.byte_vec.getD ((i + 8 * t) / 8 + 1) 0 else 0) >>> (8 - i % 8)) < 256 := by
      have h1 : (v.byte_vec.getD ((i + 8 * t) / 8) 0 <<< (i % 8)) % 256 < 256 := by
        exact Nat.mod_lt _ (by omega)
      have h2 : ((if (i + 8 * t) / 8 + 1 < v.byte_vec.length then
          v.byte_vec.getD ((i + 8 * t) / 8 + 1) 0 else 0) >>> (8 - i % 8)) < 256 := by
        rw [Nat.shiftRight_eq_div_pow]
        have hlt : (if (i + 8 * t) / 8 + 1 < v.byte_vec.length then
            v.byte_vec.getD ((i + 8 * t) / 8 + 1) 0 else 0) < 256 := by
          split
          · exact getD_lt_256 _ hb _
          · omega
        calc _ ≤ (if (i + 8 * t) / 8 + 1 < v.byte_vec.length then
            v.byte_vec.getD ((i + 8 * t) / 8 + 1) 0 else 0) := Nat.div_le_self _ _
        _ < 256 := hlt
      have h256 : (256:Nat) ≤ 2 ^ 8 := by norm_num
      have hor := Nat.or_lt_two_pow (Nat.lt_of_lt_of_le h1 h256) (Nat.lt_of_lt_of_le h2 h256)
      exact lt_of_lt_of_eq hor (by norm_num)
    calc _ ≤ _ := hshiftRL_le _ _
    _ < 256 := hcopied

theorem copy_sub_length (v : RawBitVector) (i size : Nat) (hsz : 1 ≤ size) :
    (v.copy_sub i size).length = size := by
  unfold RawBitVector.length
  rw [copy_sub_byte_vec_length]
  have : (v.copy_sub i size).last_byte_len = if size % 8 = 0 then 8 else size % 8 := by
    unfold RawBitVector.copy_sub
    simp only []
  rw [this]
  split <;> omega

theorem popcount_eq_countAccess (v : RawBitVector) (hb : ∀ b ∈ v.byte_vec, b < 256) :
    v.popcount = (List.range (8 * v.byte_vec.length)).countP (fun j => v.access j) := by
  cases v with
  | mk l lbl => exact popcount_eq_countP l lbl hb

theorem copy_sub_popcount (v : RawBitVector) (i size : Nat)
    (hb : ∀ b ∈ v.byte_vec, b < 256) (hsz : 1 ≤ size) :
    (v.copy_sub i size).popcount = v.onesIn i size := by
  rw [popcount_eq_countAccess _ (copy_sub_bytes_lt v i size hb), copy_sub_byte_vec_length]
  have h8 : 8 * ((size + 7) / 8) = size + (8 * ((size + 7) / 8) - size) := by omega
  rw [h8, countP_range_add]
  have hlow : (List.range size).countP (fun j => (v.copy_sub i size).access j)
      = v.onesIn i size := by
    apply countP_congr_eq
    intro j hj
    exact copy_sub_access v i size j hb (List.mem_range.mp hj)
  have hhigh : (List.range (8 * ((size + 7) / 8) - size)).countP
      (fun t => (v.copy_sub i size).access (size + t)) = 0 := by
    rw [List.countP_eq_zero]
    intro t _
    rw [copy_sub_access_high v i size (size + t) hb (by omega)]
    simp
  rw [hlow, hhigh]
  omega

/-! ## `as_u32` -/

/-- `testBit` of one big-endian byte lane of `as_u32`. -/
theorem shifted_term_testBit (b s p : Nat) (hblt : b < 256) (hp : p < 32) (hs : s ≤ 3) :
    (b <<< (8 * s)).testBit (31 - p) = (decide (p / 8 = 3 - s) && b.testBit (7 - p % 8)) := by
  rw [Nat.testBit_shiftLeft]
  by_cases hreg : p / 8 = 3 - s
  · have h1 : 8 * s ≤ 31 - p := by omega
    have h2 : 31 - p - 8 * s = 7 - p % 8 := by omega
    rw [h2]
    simp [h1, hreg]
  · by_cases hlow : p / 8 < 3 - s
    · -- bit position above this lane: the byte has no bits there
      have h1 : 8 ≤ 31 - p - 8 * s := by omega
      have hfalse : b.testBit (31 - p - 8 * s) = false := by
        apply Nat.testBit_lt_two_pow
        calc b < 256 := hblt
        _ = 2 ^ 8 := by norm_num
        _ ≤ 2 ^ (31 - p - 8 * s) := Nat.pow_le_pow_right (by omega) h1
      simp [hfalse, hreg]
    · -- bit position below this lane
      have h1 : ¬(8 * s ≤ 31 - p) := by omega
      simp [h1, hreg]

theorem as_u32_testBit (v : RawBitVector) (hb : ∀ b ∈ v.byte_vec, b < 256)
    (p : Nat) (hp : p < 32) : v.as_u32.testBit (31 - p) = v.access p := by
  unfold RawBitVector.as_u32
  simp only []
  rw [RawBitVector.access_testBit]
  have hb0 := getD_lt_256 v.byte_vec hb 0
  have hb1 := getD_lt_256 v.byte_vec hb 1
  have hb2 := getD_lt_256 v.byte_vec hb 2
  have hb3 := getD_lt_256 v.byte_vec hb 3
  have h24 : (24:Nat) = 8 * 3 := by norm_num
  have h16 : (16:Nat) = 8 * 2 := by norm_num
  have h8 : (8:Nat) = 8 * 1 := by norm_num
  have hb3s : v.byte_vec.getD 3 0 = v.byte_vec.getD 3 0 <<< (8 * 0) := by simp
  rw [Nat.testBit_or, Nat.testBit_or, Nat.testBit_or, h24, h16, hb3s,
    shifted_term_testBit _ 3 p hb0 hp (by omega),
    shifted_term_testBit _ 2 p hb1 hp (by omega),
    shifted_term_testBit _ 0 p hb3 hp (by omega)]
  rw [show v.byte_vec.getD 2 0 <<< 8 = v.byte_vec.getD 2 0 <<< (8 * 1) by norm_num,
    shifted_term_testBit _ 1 p hb2 hp (by omega)]
  have hp8 : p / 8 < 4 := by omega
  interval_cases hdiv : p / 8 <;> simp

theorem as_u32_lt (v : RawBitVector) (hb : ∀ b ∈ v.byte_vec, b < 256) :
    v.as_u32 < 2 ^ 32 := by
  unfold RawBitVector.as_u32
  simp only []
  have hterm : ∀ s : Nat, s ≤ 3 → ∀ b : Nat, b < 256 → b <<< (8 * s) < 2 ^ 32 := by
    intro s hs b hblt
    rw [Nat.shiftLeft_eq]
    calc b * 2 ^ (8 * s) < 256 * 2 ^ (8 * s) :=
      Nat.mul_lt_mul_of_lt_of_le hblt (Nat.le_refl _) (Nat.pos_pow_of_pos _ (by omega))
    _ = 2 ^ (8 + 8 * s) := by rw [pow_add]; norm_num
    _ ≤ 2 ^ 32 := Nat.pow_le_pow_right (by omega) (by omega)
  have hb0 := getD_lt_256 v.byte_vec hb 0
  have hb1 := getD_lt_256 v.byte_vec hb 1
  have hb2 := getD_lt_256 v.byte_vec hb 2
  have hb3 := getD_lt_256 v.byte_vec hb 3
  have h0 : v.byte_vec.getD 0 0 <<< 24 < 2 ^ 32 := by
    have := hterm 3 (by omega) _ hb0
    norm_num at this ⊢
    exact this
  have h1 : v.byte_vec.getD 1 0 <<< 16 < 2 ^ 32 := by
    have := hterm 2 (by omega) _ hb1
    norm_num at this ⊢
    exact this
  have h2 : v.byte_vec.getD 2 0 <<< 8 < 2 ^ 32 := by
    have := hterm 1 (by omega) _ hb2
    norm_num at this ⊢
    exact this
  have h3 : v.byte_vec.getD 3 0 < 2 ^ 32 := by
    calc v.byte_vec.getD 3 0 < 256 := hb3
    _ < 2 ^ 32 := by norm_num
  exact Nat.or_lt_two_pow (Nat.or_lt_two_pow (Nat.or_lt_two_pow h0 h1) h2) h3

/-- The in-block lookup key: the first `t` bits of `w`, right-aligned by
`as_u32 >> (32 - t)`, popcounts to the number of set bits among `w`'s first `t` bits. -/
theorem blockBits_countOnes (w : RawBitVector) (hb : ∀ b ∈ w.byte_vec, b < 256)
    (t : Nat) (ht32 : t ≤ 32) :
    countOnes (w.as_u32 >>> (32 - t)) = (List.range t).countP (fun q => w.access q) := by
  have hx : w.as_u32 >>> (32 - t) < 2 ^ t := by
    rw [Nat.shiftRight_eq_div_pow]
    rw [Nat.div_lt_iff_lt_mul (Nat.pos_pow_of_pos _ (by omega))]
    calc w.as_u32 < 2 ^ 32 := as_u32_lt w hb
    _ = 2 ^ t * 2 ^ (32 - t) := by rw [← pow_add]; congr 1; omega
  rw [countOnes_eq_countP t _ hx]
  have h1 : ∀ q ∈ List.range t, (w.as_u32 >>> (32 - t)).testBit q
      = w.access (t - 1 - q) := by
    intro q hq
    have hqt := List.mem_range.mp hq
    rw [Nat.testBit_shiftRight]
    have heq : 32 - t + q = 31 - (t - 1 - q) := by omega
    rw [heq]
    exact as_u32_testBit w hb (t - 1 - q) (by omega)
  rw [countP_congr_eq _ _ _ h1, countP_range_reflect t (fun q => w.access q)]

/-- The bound needed by the `PopcountTable::popcount` assert. -/
theorem blockBits_lt (w : RawBitVector) (hb : ∀ b ∈ w.byte_vec, b < 256) (t : Nat)
    (ht32 : t ≤ 32) : w.as_u32 >>> (32 - t) < 2 ^ t := by
  rw [Nat.shiftRight_eq_div_pow]
  rw [Nat.div_lt_iff_lt_mul (Nat.pos_pow_of_pos _ (by omega))]
  calc w.as_u32 < 2 ^ 32 := as_u32_lt w hb
  _ = 2 ^ t * 2 ^ (32 - t) := by rw [← pow_add]; congr 1; omega

/-! ## PopcountTable -/

theorem popcount_table_eq (bl target : Nat) (h : target < 2 ^ bl) :
    (PopcountTable.new bl).popcount target = countOnes target := by
  unfold PopcountTable.new PopcountTable.popcount
  simp [List.getD, List.getElem?_map, List.getElem?_range h]

/-! ## Size arithmetic -/

theorem calc_chunk_size_pos (n : Nat) : 1 ≤ Chunks.calc_chunk_size n := by
  unfold Chunks.calc_chunk_size
  simp only []
  split <;> omega

theorem calc_block_size_pos (n : Nat) : 1 ≤ Blocks.calc_block_size n := by
  unfold Blocks.calc_block_size
  simp only []
  split <;> omega

/-- For a `u64`-sized bit length the block size fits the 32-bit extraction. -/
theorem calc_block_size_le_32 (n : Nat) (hn : n < 2 ^ 64) : Blocks.calc_block_size n ≤ 32 := by
  unfold Blocks.calc_block_size
  simp only []
  have hlog : Nat.log2 n ≤ 63 := by
    by_cases h0 : n = 0
    · subst h0
      simp [Nat.log2]
    · have := (Nat.log2_lt h0).mpr (show n < 2 ^ 64 from hn)
      omega
  split <;> omega

/-- `i < n` implies `i` falls into a chunk index below the ceiling `n/c` count. -/
theorem div_lt_ceil (i n c : Nat) (hc : 0 < c) (h : i < n) :
    i / c < n / c + (if n % c = 0 then 0 else 1) := by
  rw [Nat.div_lt_iff_lt_mul hc]
  have hd := Nat.div_add_mod n c
  by_cases hr : n % c = 0
  · have hite : (if n % c = 0 then 0 else 1) = 0 := if_pos hr
    rw [hite, Nat.add_zero, Nat.mul_comm]
    omega
  · have hite : (if n % c = 0 then 0 else 1) = 1 := if_neg hr
    rw [hite, Nat.add_mul, Nat.one_mul, Nat.mul_comm]
    have := Nat.mod_lt n hc
    omega

/-- Every index below the ceiling count starts strictly inside the range. -/
theorem ceil_pred_mul_lt (t b k : Nat) (hb : 0 < b)
    (hk : k < t / b + (if t % b = 0 then 0 else 1)) : k * b < t := by
  have hd := Nat.div_add_mod t b
  have hm := Nat.mod_lt t hb
  by_cases hr : t % b = 0
  · rw [if_pos hr, Nat.add_zero] at hk
    have h1 : (k + 1) * b ≤ (t / b) * b := Nat.mul_le_mul_right b hk
    rw [Nat.add_mul, Nat.one_mul] at h1
    have h2 : (t / b) * b = b * (t / b) := Nat.mul_comm ..
    omega
  · rw [if_neg hr] at hk
    have hk' : k ≤ t / b := by omega
    have h1 : k * b ≤ (t / b) * b := Nat.mul_le_mul_right b hk'
    have h2 : (t / b) * b = b * (t / b) := Nat.mul_comm ..
    omega

/-! ## Interval bit counts -/

theorem onesIn_add (v : RawBitVector) (a d1 d2 : Nat) :
    v.onesIn a (d1 + d2) = v.onesIn a d1 + v.onesIn (a + d1) d2 := by
  unfold RawBitVector.onesIn
  rw [countP_range_add]
  congr 1
  apply countP_congr_eq
  intro t _
  congr 1
  omega

theorem onesBelow_eq_onesIn (v : RawBitVector) (k : Nat) : v.onesBelow k = v.onesIn 0 k := by
  unfold RawBitVector.onesBelow RawBitVector.onesIn
  apply countP_congr_eq
  intro j _
  congr 1
  omega

theorem onesBelow_add (v : RawBitVector) (a d : Nat) :
    v.onesBelow (a + d) = v.onesBelow a + v.onesIn a d := by
  rw [onesBelow_eq_onesIn, onesBelow_eq_onesIn]
  have h := onesIn_add v 0 a d
  simpa using h

theorem onesBelow_succ (v : RawBitVector) (k : Nat) :
    v.onesBelow (k + 1) = v.onesBelow k + (if v.access k then 1 else 0) := by
  unfold RawBitVector.onesBelow
  rw [countP_range_succ]

theorem onesBelow_mono (v : RawBitVector) (a b : Nat) (h : a ≤ b) :
    v.onesBelow a ≤ v.onesBelow b := by
  unfold RawBitVector.onesBelow
  exact countP_range_mono a b _ h

theorem onesBelow_le (v : RawBitVector) (k : Nat) : v.onesBelow k ≤ k := by
  unfold RawBitVector.onesBelow
  calc _ ≤ (List.range k).length := List.countP_le_length _
  _ = k := List.length_range k

theorem zerosBelow_eq (v : RawBitVector) (k : Nat) :
    v.zerosBelow k = k - v.onesBelow k := by
  have h := List.length_eq_countP_add_countP (fun j => v.access j) (List.range k)
  rw [List.length_range] at h
  have h2 : (List.range k).countP (fun a => decide ¬(v.access a = true)) = v.zerosBelow k := by
    unfold RawBitVector.zerosBelow
    apply countP_congr_eq
    intro a _
    cases v.access a <;> simp
  unfold RawBitVector.onesBelow
  omega

/-! ## The block directory invariant -/

theorem blocks_build_length (v : RawBitVector) (c : Nat) :
    ∀ m, (Blocks.build v c m).length = m := by
  intro m
  induction m with
  | zero => rfl
  | succ k ih =>
    simp only [Blocks.build]
    rw [List.length_append, ih]
    rfl

/-- Block `j` of chunk `c` covers `[c*cs + j*bs, c*cs + (j+1)*bs)` (clipped at `n`) and
stores the cumulative 1-count from the chunk's first bit through its own last bit. -/
theorem blocks_build_getD (v : RawBitVector) (hb : ∀ b ∈ v.byte_vec, b < 256) (c : Nat) :
    ∀ m, (∀ k, k < m →
        c * Chunks.calc_chunk_size v.length + k * Blocks.calc_block_size v.length < v.length) →
    ∀ j, j < m →
    (Blocks.build v c m).getD j ⟨0, 0⟩
      = ⟨v.onesIn (c * Chunks.calc_chunk_size v.length)
            (min ((j + 1) * Blocks.calc_block_size v.length)
                 (v.length - c * Chunks.calc_chunk_size v.length)),
         Blocks.this_block_size v.length (Blocks.calc_block_size v.length)
            (c * Chunks.calc_chunk_size v.length + j * Blocks.calc_block_size v.length)⟩ := by
  intro m
  induction m with
  | zero =>
    intro _ j hj
    exact absurd hj (Nat.not_lt_zero j)
  | succ m' ih =>
    intro hm j hj
    have hlenL : (Blocks.build v c m').length = m' := blocks_build_length v c m'
    simp only [Blocks.build]
    by_cases hj' : j < m'
    · -- still inside the previously built prefix
      have happ : ∀ x : Block, (Blocks.build v c m' ++ [x]).getD j ⟨0, 0⟩
          = (Blocks.build v c m').getD j ⟨0, 0⟩ := by
        intro x
        have hl : j < (Blocks.build v c m').length := by omega
        simp [List.getD, List.getElem?_append_left hl]
      rw [happ]
      exact ih (fun k hk => hm k (by omega)) j hj'
    · -- j = m': the newly appended block
      have hjm : j = m' := by omega
      subst hjm
      have hstart : c * Chunks.calc_chunk_size v.length + j * Blocks.calc_block_size v.length
          < v.length := hm j (by omega)
      -- the appended element
      have hget : ∀ x : Block, (Blocks.build v c j ++ [x]).getD j ⟨0, 0⟩ = x := by
        intro x
        have h1 : (Blocks.build v c j ++ [x])[j]? = [x][j - (Blocks.build v c j).length]? :=
          List.getElem?_append_right (by omega)
        have h2 : j - (Blocks.build v c j).length = 0 := by omega
        rw [h2] at h1
        simp [List.getD, h1]
      rw [hget]
      -- second field is literally the same expression; compute the first
      have hbs1 : 1 ≤ Blocks.calc_block_size v.length := calc_block_size_pos v.length
      have htbs1 : 1 ≤ Blocks.this_block_size v.length (Blocks.calc_block_size v.length)
          (c * Chunks.calc_chunk_size v.length + j * Blocks.calc_block_size v.length) := by
        unfold Blocks.this_block_size
        split <;> omega
      have hpop : (v.copy_sub
            (c * Chunks.calc_chunk_size v.length + j * Blocks.calc_block_size v.length)
            (Blocks.this_block_size v.length (Blocks.calc_block_size v.length)
              (c * Chunks.calc_chunk_size v.length
                + j * Blocks.calc_block_size v.length))).popcount
          = v.onesIn (c * Chunks.calc_chunk_size v.length + j * Blocks.calc_block_size v.length)
              (Blocks.this_block_size v.length (Blocks.calc_block_size v.length)
                (c * Chunks.calc_chunk_size v.length + j * Blocks.calc_block_size v.length)) :=
        copy_sub_popcount v _ _ hb htbs1
      have hlast : (match (Blocks.build v c j).getLast? with
            | some block_left => block_left.value
            | none => 0)
          = v.onesIn (c * Chunks.calc_chunk_size v.length)
              (min (j * Blocks.calc_block_size v.length)
                (v.length - c * Chunks.calc_chunk_size v.length)) := by
        by_cases hj0 : j = 0
        · subst hj0
          show (0:Nat) = v.onesIn _ (min (0 * Blocks.calc_block_size v.length) _)
          rw [Nat.zero_mul]
          simp [RawBitVector.onesIn]
        · have hlt : j - 1 < (Blocks.build v c j).length := by omega
          have hg : (Blocks.build v c j).getLast?
              = some ((Blocks.build v c j).getD (j - 1) ⟨0, 0⟩) := by
            rw [List.getLast?_eq_getElem?, hlenL, List.getElem?_eq_getElem hlt]
            simp [List.getD, List.getElem?_eq_getElem hlt]
          rw [hg]
          have hih := ih (fun t ht => hm t (by omega)) (j - 1) (by omega)
          rw [hih]
          show v.onesIn _ (min ((j - 1 + 1) * Blocks.calc_block_size v.length) _) = _
          have hj1 : j - 1 + 1 = j := by omega
          rw [hj1]
      rw [hpop, hlast]
      -- assemble: counts over adjacent intervals merge
      have hmin : min (j * Blocks.calc_block_size v.length)
            (v.length - c * Chunks.calc_chunk_size v.length)
          = j * Blocks.calc_block_size v.length := by
        apply Nat.min_eq_left
        omega
      rw [hmin]
      have hadd := onesIn_add v (c * Chunks.calc_chunk_size v.length)
        (j * Blocks.calc_block_size v.length)
        (Blocks.this_block_size v.length (Blocks.calc_block_size v.length)
          (c * Chunks.calc_chunk_size v.length + j * Blocks.calc_block_size v.length))
      have hsum : j * Blocks.calc_block_size v.length +
            Blocks.this_block_size v.length (Blocks.calc_block_size v.length)
              (c * Chunks.calc_chunk_size v.length + j * Blocks.calc_block_size v.length)
          = min ((j + 1) * Blocks.calc_block_size v.length)
              (v.length - c * Chunks.calc_chunk_size v.length) := by
        have hsucc : (j + 1) * Blocks.calc_block_size v.length
            = j * Blocks.calc_block_size v.length + Blocks.calc_block_size v.length :=
          Nat.succ_mul ..
        unfold Blocks.this_block_size
        split
        · rw [Nat.min_eq_left (by omega), hsucc]
        · rw [Nat.min_eq_right (by omega)]
          omega
      congr 1
      rw [Nat.add_comm, ← hadd, hsum]

/-! ## The chunk directory invariant -/

theorem accumulate_length : ∀ (l : List Chunk) (acc : Nat),
    (Chunks.accumulate acc l).length = l.length := by
  intro l
  induction l with
  | nil => intro acc; rfl
  | cons c rest ih =>
    intro acc
    show (Chunks.accumulate acc (c :: rest)).length = rest.length + 1
    unfold Chunks.accumulate
    rw [List.length_cons, ih]

theorem accumulate_getD : ∀ (l : List Chunk) (acc c : Nat), c < l.length →
    (Chunks.accumulate acc l).getD c ⟨0, 0, ⟨[], 0⟩⟩
      = ⟨acc + ((l.take (c + 1)).map (fun ch => ch.value)).sum,
         (l.getD c ⟨0, 0, ⟨[], 0⟩⟩).length, (l.getD c ⟨0, 0, ⟨[], 0⟩⟩).blocks⟩ := by
  intro l
  induction l with
  | nil =>
    intro acc c hc
    exact absurd hc (by simp)
  | cons x rest ih =>
    intro acc c hc
    cases c with
    | zero =>
      show (⟨x.value + acc, x.length, x.blocks⟩ :: Chunks.accumulate (x.value + acc) rest).getD
          0 ⟨0, 0, ⟨[], 0⟩⟩ = _
      simp [List.getD]
      omega
    | succ c' =>
      show (⟨x.value + acc, x.length, x.blocks⟩ :: Chunks.accumulate (x.value + acc) rest).getD
          (c' + 1) ⟨0, 0, ⟨[], 0⟩⟩ = _
      have h1 : (⟨x.value + acc, x.length, x.blocks⟩ ::
          Chunks.accumulate (x.value + acc) rest).getD (c' + 1) ⟨0, 0, ⟨[], 0⟩⟩
          = (Chunks.accumulate (x.value + acc) rest).getD c' ⟨0, 0, ⟨[], 0⟩⟩ := rfl
      rw [h1, ih (x.value + acc) c' (by simpa using hc)]
      have h2 : ((x :: rest).take (c' + 1 + 1)).map (fun ch => ch.value)
          = x.value :: ((rest.take (c' + 1)).map (fun ch => ch.value)) := by
        rw [List.take_succ_cons, List.map_cons]
      rw [h2, List.sum_cons]
      have h3 : (x :: rest).getD (c' + 1) ⟨0, 0, ⟨[], 0⟩⟩ = rest.getD c' ⟨0, 0, ⟨[], 0⟩⟩ := rfl
      rw [h3]
      congr 1
      omega

/-- The end of chunk `c`: `c*cs + this_chunk_size = min((c+1)*cs, n)`. -/
theorem this_chunk_size_spec (n : Nat) (hn : 1 ≤ n) (c : Nat)
    (hc : c < Chunks.calc_chunks_cnt n) :
    c * Chunks.calc_chunk_size n
      + Chunks.this_chunk_size n (Chunks.calc_chunk_size n) (Chunks.calc_chunks_cnt n) c
    = min ((c + 1) * Chunks.calc_chunk_size n) n := by
  have hcs : 1 ≤ Chunks.calc_chunk_size n := calc_chunk_size_pos n
  have hd := Nat.div_add_mod n (Chunks.calc_chunk_size n)
  have hmlt := Nat.mod_lt n hcs
  have hsucc : (c + 1) * Chunks.calc_chunk_size n
      = c * Chunks.calc_chunk_size n + Chunks.calc_chunk_size n := Nat.succ_mul ..
  unfold Chunks.this_chunk_size
  unfold Chunks.calc_chunks_cnt at hc ⊢
  by_cases hlast : c = n / Chunks.calc_chunk_size n
      + (if n % Chunks.calc_chunk_size n = 0 then 0 else 1) - 1
  · rw [if_pos hlast]
    by_cases hr : n % Chunks.calc_chunk_size n = 0
    · rw [if_pos hr]
      rw [if_pos hr] at hc hlast
      have hq1 : 1 ≤ n / Chunks.calc_chunk_size n := by omega
      have hq : c + 1 = n / Chunks.calc_chunk_size n := by omega
      have h2 : (c + 1) * Chunks.calc_chunk_size n
          = Chunks.calc_chunk_size n * (n / Chunks.calc_chunk_size n) := by
        rw [hq, Nat.mul_comm]
      have h3 : (c + 1) * Chunks.calc_chunk_size n = n := by omega
      rw [h3, Nat.min_self]
      omega
    · rw [if_neg hr]
      rw [if_neg hr] at hc hlast
      have hcq : c = n / Chunks.calc_chunk_size n := by omega
      have h2 : c * Chunks.calc_chunk_size n
          = Chunks.calc_chunk_size n * (n / Chunks.calc_chunk_size n) := by
        rw [hcq, Nat.mul_comm]
      have hmin : min ((c + 1) * Chunks.calc_chunk_size n) n = n :=
        Nat.min_eq_right (by omega)
      rw [hmin]
      omega
  · rw [if_neg hlast]
    have hc1 : c + 1 < n / Chunks.calc_chunk_size n
        + (if n % Chunks.calc_chunk_size n = 0 then 0 else 1) := by omega
    have hlt : (c + 1) * Chunks.calc_chunk_size n < n :=
      ceil_pred_mul_lt n (Chunks.calc_chunk_size n) (c + 1) hcs hc1
    rw [Nat.min_eq_left (by omega)]
    omega

/-- The start of every chunk is inside the vector. -/
theorem chunk_start_lt (n : Nat) (hn : 1 ≤ n) (c : Nat)
    (hc : c < Chunks.calc_chunks_cnt n) : c * Chunks.calc_chunk_size n < n := by
  have hcs : 1 ≤ Chunks.calc_chunk_size n := calc_chunk_size_pos n
  unfold Chunks.calc_chunks_cnt at hc
  exact ceil_pred_mul_lt n (Chunks.calc_chunk_size n) c hcs hc

theorem this_chunk_size_pos (n : Nat) (c : Nat) :
    1 ≤ Chunks.this_chunk_size n (Chunks.calc_chunk_size n) (Chunks.calc_chunks_cnt n) c := by
  have hcs : 1 ≤ Chunks.calc_chunk_size n := calc_chunk_size_pos n
  unfold Chunks.this_chunk_size
  split
  · split <;> omega
  · omega

theorem phase1_chunk_eq (v : RawBitVector) (hb : ∀ b ∈ v.byte_vec, b < 256) (c : Nat) :
    Chunks.phase1_chunk v c
      = ⟨v.onesIn (c * Chunks.calc_chunk_size v.length)
            (Chunks.this_chunk_size v.length (Chunks.calc_chunk_size v.length)
              (Chunks.calc_chunks_cnt v.length) c),
         Chunks.this_chunk_size v.length (Chunks.calc_chunk_size v.length)
            (Chunks.calc_chunks_cnt v.length) c,
         Blocks.new v c (Chunks.this_chunk_size v.length (Chunks.calc_chunk_size v.length)
            (Chunks.calc_chunks_cnt v.length) c)⟩ := by
  unfold Chunks.phase1_chunk Chunk.new
  simp only []
  have hlen : v.len = v.length := rfl
  rw [hlen]
  have hpos := this_chunk_size_pos v.length c
  have hpop : (v.clone_sub (c * Chunks.calc_chunk_size v.length)
        (Chunks.this_chunk_size v.length (Chunks.calc_chunk_size v.length)
          (Chunks.calc_chunks_cnt v.length) c)).popcount
      = v.onesIn (c * Chunks.calc_chunk_size v.length)
          (Chunks.this_chunk_size v.length (Chunks.calc_chunk_size v.length)
            (Chunks.calc_chunks_cnt v.length) c) :=
    copy_sub_popcount v _ _ hb hpos
  rw [hpop]

theorem phase1_take_succ (v : RawBitVector) (k : Nat)
    (hk : k < Chunks.calc_chunks_cnt v.length) :
    ((List.range (Chunks.calc_chunks_cnt v.length)).map (Chunks.phase1_chunk v)).take (k + 1)
      = ((List.range (Chunks.calc_chunks_cnt v.length)).map (Chunks.phase1_chunk v)).take k
        ++ [Chunks.phase1_chunk v k] := by
  rw [List.take_succ]
  congr 1
  have h1 : ((List.range (Chunks.calc_chunks_cnt v.length)).map (Chunks.phase1_chunk v))[k]?
      = some (Chunks.phase1_chunk v k) := by
    rw [List.getElem?_map, List.getElem?_range hk]
    rfl
  rw [h1]
  rfl

theorem phase1_sum (v : RawBitVector) (hb : ∀ b ∈ v.byte_vec, b < 256)
    (hn : 1 ≤ v.length) : ∀ c, c < Chunks.calc_chunks_cnt v.length →
    (((((List.range (Chunks.calc_chunks_cnt v.length)).map
        (Chunks.phase1_chunk v)).take (c + 1)).map (fun ch => ch.value)).sum
      = v.onesBelow (min ((c + 1) * Chunks.calc_chunk_size v.length) v.length)) := by
  intro c
  induction c with
  | zero =>
    intro hc
    rw [phase1_take_succ v 0 hc]
    simp only [List.take_zero, List.nil_append, List.map_cons, List.map_nil, List.sum_cons,
      List.sum_nil]
    rw [phase1_chunk_eq v hb 0]
    have hspec := this_chunk_size_spec v.length hn 0 hc
    rw [Nat.zero_mul, Nat.zero_add] at hspec
    show v.onesIn (0 * Chunks.calc_chunk_size v.length) _ + 0 = _
    rw [Nat.zero_mul, Nat.add_zero, ← hspec, ← onesBelow_eq_onesIn]
  | succ c ih =>
    intro hc
    have hcc : c < Chunks.calc_chunks_cnt v.length := by omega
    rw [phase1_take_succ v (c + 1) hc, List.map_append, List.sum_append, ih hcc]
    rw [phase1_chunk_eq v hb (c + 1)]
    simp only [List.map_cons, List.map_nil, List.sum_cons, List.sum_nil]
    have hlt : (c + 1) * Chunks.calc_chunk_size v.length < v.length :=
      chunk_start_lt v.length hn (c + 1) hc
    rw [Nat.min_eq_left (by omega)]
    have hadd := onesBelow_add v ((c + 1) * Chunks.calc_chunk_size v.length)
      (Chunks.this_chunk_size v.length (Chunks.calc_chunk_size v.length)
        (Chunks.calc_chunks_cnt v.length) (c + 1))
    rw [this_chunk_size_spec v.length hn (c + 1) hc] at hadd
    omega

/-- The chunk directory after the sequential pass: chunk `c` stores the cumulative
1-count of `[0, min((c+1)*chunk_size, n))`, its own length, and its blocks. -/
theorem chunks_new_getD (v : RawBitVector) (hb : ∀ b ∈ v.byte_vec, b < 256)
    (hn : 1 ≤ v.length) (c : Nat) (hc : c < Chunks.calc_chunks_cnt v.length) :
    (Chunks.new v).chunks.getD c ⟨0, 0, ⟨[], 0⟩⟩
      = ⟨v.onesBelow (min ((c + 1) * Chunks.calc_chunk_size v.length) v.length),
         Chunks.this_chunk_size v.length (Chunks.calc_chunk_size v.length)
            (Chunks.calc_chunks_cnt v.length) c,
         Blocks.new v c (Chunks.this_chunk_size v.length (Chunks.calc_chunk_size v.length)
            (Chunks.calc_chunks_cnt v.length) c)⟩ := by
  unfold Chunks.new
  simp only []
  have hlen : v.len = v.length := rfl
  rw [hlen]
  have hllen : ((List.range (Chunks.calc_chunks_cnt v.length)).map
      (Chunks.phase1_chunk v)).length = Chunks.calc_chunks_cnt v.length := by
    rw [List.length_map, List.length_range]
  rw [accumulate_getD _ 0 c (by omega)]
  have hgd : ((List.range (Chunks.calc_chunks_cnt v.length)).map
      (Chunks.phase1_chunk v)).getD c ⟨0, 0, ⟨[], 0⟩⟩ = Chunks.phase1_chunk v c := by
    simp [List.getD, List.getElem?_map, List.getElem?_range hc]
  rw [hgd, phase1_sum v hb hn c hc, phase1_chunk_eq v hb c]
  simp

theorem chunks_new_cnt (v : RawBitVector) :
    (Chunks.new v).chunks_cnt = Chunks.calc_chunks_cnt v.length := rfl

theorem chunks_new_length (v : RawBitVector) :
    (Chunks.new v).chunks.length = Chunks.calc_chunks_cnt v.length := by
  unfold Chunks.new
  simp only []
  rw [accumulate_length, List.length_map, List.length_range]
  rfl

/-! ## Rank correctness -/

theorem onesBelow_zero (v : RawBitVector) : v.onesBelow 0 = 0 := rfl

theorem onesIn_zero (v : RawBitVector) (a : Nat) : v.onesIn a 0 = 0 := rfl

theorem lt_chunks_cnt (i n : Nat) (h : i < n) :
    i / Chunks.calc_chunk_size n < Chunks.calc_chunks_cnt n := by
  unfold Chunks.calc_chunks_cnt
  exact div_lt_ceil i n _ (calc_chunk_size_pos n) h

/-- `Fid::rank` computes the cumulative 1-count, for any `Fid` whose directory was built
by `Chunks::new`/`PopcountTable::new` over the vector it reconstructs. -/
theorem rank_eq_core (f : Fid) (v : RawBitVector)
    (hfc : f.chunks = Chunks.new v)
    (hft : f.table = PopcountTable.new (Blocks.calc_block_size v.length))
    (hfl : f.bit_len = v.length)
    (hfr : f.rbv = v)
    (hb : ∀ b ∈ v.byte_vec, b < 256)
    (hn64 : v.length < 2 ^ 64)
    (i : Nat) (hi : i < v.length) :
    f.rank i = v.onesBelow (i + 1) := by
  have hn : 1 ≤ v.length := by omega
  have hcs : 1 ≤ Chunks.calc_chunk_size v.length := calc_chunk_size_pos v.length
  have hbs : 1 ≤ Blocks.calc_block_size v.length := calc_block_size_pos v.length
  have hbs32 : Blocks.calc_block_size v.length ≤ 32 := calc_block_size_le_32 v.length hn64
  have hic : i / Chunks.calc_chunk_size v.length < Chunks.calc_chunks_cnt v.length :=
    lt_chunks_cnt i v.length hi
  -- division bookkeeping (the `0 ≤` facts keep `omega` sound on opaque divisions)
  have hge1 : 0 ≤ i / Chunks.calc_chunk_size v.length := Nat.zero_le _
  have hge2 : 0 ≤ i % Chunks.calc_chunk_size v.length / Blocks.calc_block_size v.length :=
    Nat.zero_le _
  have hge3 : 0 ≤ Chunks.this_chunk_size v.length (Chunks.calc_chunk_size v.length)
      (Chunks.calc_chunks_cnt v.length) (i / Chunks.calc_chunk_size v.length)
      / Blocks.calc_block_size v.length := Nat.zero_le _
  have hdiv1 := Nat.div_add_mod i (Chunks.calc_chunk_size v.length)
  have hmod1 := Nat.mod_lt i hcs
  have hdiv2 := Nat.div_add_mod (i % Chunks.calc_chunk_size v.length)
    (Blocks.calc_block_size v.length)
  have hmod2 := Nat.mod_lt (i % Chunks.calc_chunk_size v.length) hbs
  have hcomm1 : i / Chunks.calc_chunk_size v.length * Chunks.calc_chunk_size v.length
      = Chunks.calc_chunk_size v.length * (i / Chunks.calc_chunk_size v.length) :=
    Nat.mul_comm ..
  have hcomm2 : i % Chunks.calc_chunk_size v.length / Blocks.calc_block_size v.length
        * Blocks.calc_block_size v.length
      = Blocks.calc_block_size v.length
        * (i % Chunks.calc_chunk_size v.length / Blocks.calc_block_size v.length) :=
    Nat.mul_comm ..
  have hspec := this_chunk_size_spec v.length hn (i / Chunks.calc_chunk_size v.length) hic
  have hsucc1 : (i / Chunks.calc_chunk_size v.length + 1) * Chunks.calc_chunk_size v.length
      = i / Chunks.calc_chunk_size v.length * Chunks.calc_chunk_size v.length
        + Chunks.calc_chunk_size v.length := Nat.succ_mul ..
  have hminspec : min ((i / Chunks.calc_chunk_size v.length + 1)
        * Chunks.calc_chunk_size v.length) v.length
      ≤ v.length := Nat.min_le_right ..
  -- the in-chunk offset is `i % chunk_size`, bounded by the chunk's length
  have hoff : i - i / Chunks.calc_chunk_size v.length * Chunks.calc_chunk_size v.length
      = i % Chunks.calc_chunk_size v.length := by omega
  have hoff_lt : i % Chunks.calc_chunk_size v.length
      < Chunks.this_chunk_size v.length (Chunks.calc_chunk_size v.length)
          (Chunks.calc_chunks_cnt v.length) (i / Chunks.calc_chunk_size v.length) := by omega
  -- block index bookkeeping
  have hib : i % Chunks.calc_chunk_size v.length / Blocks.calc_block_size v.length
      < Chunks.this_chunk_size v.length (Chunks.calc_chunk_size v.length)
          (Chunks.calc_chunks_cnt v.length) (i / Chunks.calc_chunk_size v.length)
          / Blocks.calc_block_size v.length
        + (if Chunks.this_chunk_size v.length (Chunks.calc_chunk_size v.length)
              (Chunks.calc_chunks_cnt v.length) (i / Chunks.calc_chunk_size v.length)
              % Blocks.calc_block_size v.length = 0 then 0 else 1) :=
    div_lt_ceil _ _ _ hbs hoff_lt
  have hmblocks : ∀ k, k < Chunks.this_chunk_size v.length (Chunks.calc_chunk_size v.length)
        (Chunks.calc_chunks_cnt v.length) (i / Chunks.calc_chunk_size v.length)
        / Blocks.calc_block_size v.length
      + (if Chunks.this_chunk_size v.length (Chunks.calc_chunk_size v.length)
            (Chunks.calc_chunks_cnt v.length) (i / Chunks.calc_chunk_size v.length)
            % Blocks.calc_block_size v.length = 0 then 0 else 1) →
      i / Chunks.calc_chunk_size v.length * Chunks.calc_chunk_size v.length
        + k * Blocks.calc_block_size v.length < v.length := by
    intro k hk
    have := ceil_pred_mul_lt _ (Blocks.calc_block_size v.length) k hbs hk
    omega
  -- unfold rank
  unfold Fid.rank
  simp only []
  have hflen : f.len = v.length := hfl
  rw [hflen, hfc, hfr]
  -- the chunk directory reads
  unfold Chunks.access
  have hcright := chunks_new_getD v hb hn (i / Chunks.calc_chunk_size v.length) hic
  rw [hcright]
  have hrfc : (if i / Chunks.calc_chunk_size v.length = 0 then 0
      else ((Chunks.new v).chunks.getD (i / Chunks.calc_chunk_size v.length - 1)
        ⟨0, 0, ⟨[], 0⟩⟩).value)
      = v.onesBelow (i / Chunks.calc_chunk_size v.length * Chunks.calc_chunk_size v.length) := by
    by_cases hic0 : i / Chunks.calc_chunk_size v.length = 0
    · rw [if_pos hic0, hic0, Nat.zero_mul, onesBelow_zero]
    · rw [if_neg hic0]
      have hicm : i / Chunks.calc_chunk_size v.length - 1 < Chunks.calc_chunks_cnt v.length := by
        omega
      rw [chunks_new_getD v hb hn _ hicm]
      show v.onesBelow _ = _
      have h1 : i / Chunks.calc_chunk_size v.length - 1 + 1
          = i / Chunks.calc_chunk_size v.length := by omega
      rw [h1]
      congr 1
      apply Nat.min_eq_left
      omega
  rw [hrfc]
  -- the in-chunk offset `i - i_chunk * chunk_size` is `i % chunk_size`
  rw [hoff]
  -- the block directory reads
  unfold Blocks.new Blocks.access
  simp only []
  have hbg := blocks_build_getD v hb (i / Chunks.calc_chunk_size v.length) _ hmblocks
  rw [hbg _ hib]
  have hrfb : (if i % Chunks.calc_chunk_size v.length / Blocks.calc_block_size v.length = 0
      then 0
      else ((Blocks.build v (i / Chunks.calc_chunk_size v.length)
          (Chunks.this_chunk_size v.length (Chunks.calc_chunk_size v.length)
              (Chunks.calc_chunks_cnt v.length) (i / Chunks.calc_chunk_size v.length)
            / Blocks.calc_block_size v.length
          + (if Chunks.this_chunk_size v.length (Chunks.calc_chunk_size v.length)
                (Chunks.calc_chunks_cnt v.length) (i / Chunks.calc_chunk_size v.length)
                % Blocks.calc_block_size v.length = 0 then 0 else 1))).getD
          (i % Chunks.calc_chunk_size v.length / Blocks.calc_block_size v.length - 1)
          ⟨0, 0⟩).value)
      = v.onesIn (i / Chunks.calc_chunk_size v.length * Chunks.calc_chunk_size v.length)
          (i % Chunks.calc_chunk_size v.length / Blocks.calc_block_size v.length
            * Blocks.calc_block_size v.length) := by
    by_cases hib0 : i % Chunks.calc_chunk_size v.length / Blocks.calc_block_size v.length = 0
    · rw [if_pos hib0, hib0, Nat.zero_mul, onesIn_zero]
    · rw [if_neg hib0]
      have hibm : i % Chunks.calc_chunk_size v.length / Blocks.calc_block_size v.length - 1
          < Chunks.this_chunk_size v.length (Chunks.calc_chunk_size v.length)
              (Chunks.calc_chunks_cnt v.length) (i / Chunks.calc_chunk_size v.length)
            / Blocks.calc_block_size v.length
          + (if Chunks.this_chunk_size v.length (Chunks.calc_chunk_size v.length)
                (Chunks.calc_chunks_cnt v.length) (i / Chunks.calc_chunk_size v.length)
                % Blocks.calc_block_size v.length = 0 then 0 else 1) := by omega
      rw [hbg _ hibm]
      show v.onesIn _ _ = _
      have h1 : i % Chunks.calc_chunk_size v.length / Blocks.calc_block_size v.length - 1 + 1
          = i % Chunks.calc_chunk_size v.length / Blocks.calc_block_size v.length := by omega
      rw [h1]
      congr 1
      apply Nat.min_eq_left
      omega
  rw [hrfb]
  -- the in-block table lookup
  have htbs : Blocks.this_block_size v.length (Blocks.calc_block_size v.length)
        (i / Chunks.calc_chunk_size v.length * Chunks.calc_chunk_size v.length
          + i % Chunks.calc_chunk_size v.length / Blocks.calc_block_size v.length
            * Blocks.calc_block_size v.length)
      = min (Blocks.calc_block_size v.length)
          (v.length - (i / Chunks.calc_chunk_size v.length * Chunks.calc_chunk_size v.length
            + i % Chunks.calc_chunk_size v.length / Blocks.calc_block_size v.length
              * Blocks.calc_block_size v.length)) := by
    unfold Blocks.this_block_size
    split
    · rw [Nat.min_eq_left (by omega)]
    · rw [Nat.min_eq_right (by omega)]
  have hpbs_le : i / Chunks.calc_chunk_size v.length * Chunks.calc_chunk_size v.length
      + i % Chunks.calc_chunk_size v.length / Blocks.calc_block_size v.length
        * Blocks.calc_block_size v.length ≤ i := by omega
  have hbits_le : i - (i / Chunks.calc_chunk_size v.length * Chunks.calc_chunk_size v.length
      + i % Chunks.calc_chunk_size v.length / Blocks.calc_block_size v.length
        * Blocks.calc_block_size v.length) + 1
      ≤ Blocks.this_block_size v.length (Blocks.calc_block_size v.length)
          (i / Chunks.calc_chunk_size v.length * Chunks.calc_chunk_size v.length
            + i % Chunks.calc_chunk_size v.length / Blocks.calc_block_size v.length
              * Blocks.calc_block_size v.length) := by
    rw [htbs]
    have h1 : i - (i / Chunks.calc_chunk_size v.length * Chunks.calc_chunk_size v.length
        + i % Chunks.calc_chunk_size v.length / Blocks.calc_block_size v.length
          * Blocks.calc_block_size v.length)
        = i % Chunks.calc_chunk_size v.length % Blocks.calc_block_size v.length := by omega
    rw [h1]
    have h2 := Nat.min_le_left (Blocks.calc_block_size v.length)
      (v.length - (i / Chunks.calc_chunk_size v.length * Chunks.calc_chunk_size v.length
        + i % Chunks.calc_chunk_size v.length / Blocks.calc_block_size v.length
          * Blocks.calc_block_size v.length))
    have h3 := Nat.min_le_right (Blocks.calc_block_size v.length)
      (v.length - (i / Chunks.calc_chunk_size v.length * Chunks.calc_chunk_size v.length
        + i % Chunks.calc_chunk_size v.length / Blocks.calc_block_size v.length
          * Blocks.calc_block_size v.length))
    omega
  have hbits1 : 1 ≤ i - (i / Chunks.calc_chunk_size v.length * Chunks.calc_chunk_size v.length
      + i % Chunks.calc_chunk_size v.length / Blocks.calc_block_size v.length
        * Blocks.calc_block_size v.length) + 1 := by omega
  -- name the copied block and the lookup width
  rw [hft]
  have hw := copy_sub_bytes_lt v
    (i / Chunks.calc_chunk_size v.length * Chunks.calc_chunk_size v.length
      + i % Chunks.calc_chunk_size v.length / Blocks.calc_block_size v.length
        * Blocks.calc_block_size v.length)
    (Blocks.this_block_size v.length (Blocks.calc_block_size v.length)
      (i / Chunks.calc_chunk_size v.length * Chunks.calc_chunk_size v.length
        + i % Chunks.calc_chunk_size v.length / Blocks.calc_block_size v.length
          * Blocks.calc_block_size v.length)) hb
  have ht32 : i - (i / Chunks.calc_chunk_size v.length * Chunks.calc_chunk_size v.length
      + i % Chunks.calc_chunk_size v.length / Blocks.calc_block_size v.length
        * Blocks.calc_block_size v.length) + 1 ≤ 32 := by omega
  have hkey_lt := blockBits_lt (v.copy_sub
      (i / Chunks.calc_chunk_size v.length * Chunks.calc_chunk_size v.length
        + i % Chunks.calc_chunk_size v.length / Blocks.calc_block_size v.length
          * Blocks.calc_block_size v.length)
      (Blocks.this_block_size v.length (Blocks.calc_block_size v.length)
        (i / Chunks.calc_chunk_size v.length * Chunks.calc_chunk_size v.length
          + i % Chunks.calc_chunk_size v.length / Blocks.calc_block_size v.length
            * Blocks.calc_block_size v.length))) hw
    (i - (i / Chunks.calc_chunk_size v.length * Chunks.calc_chunk_size v.length
      + i % Chunks.calc_chunk_size v.length / Blocks.calc_block_size v.length
        * Blocks.calc_block_size v.length) + 1) ht32
  have hkey_lt_bl : (v.copy_sub
      (i / Chunks.calc_chunk_size v.length * Chunks.calc_chunk_size v.length
        + i % Chunks.calc_chunk_size v.length / Blocks.calc_block_size v.length
          * Blocks.calc_block_size v.length)
      (Blocks.this_block_size v.length (Blocks.calc_block_size v.length)
        (i / Chunks.calc_chunk_size v.length * Chunks.calc_chunk_size v.length
          + i % Chunks.calc_chunk_size v.length / Blocks.calc_block_size v.length
            * Blocks.calc_block_size v.length))).as_u32
      >>> (32 - (i - (i / Chunks.calc_chunk_size v.length * Chunks.calc_chunk_size v.length
        + i % Chunks.calc_chunk_size v.length / Blocks.calc_block_size v.length
          * Blocks.calc_block_size v.length) + 1))
      < 2 ^ Blocks.calc_block_size v.length := by
    calc _ < 2 ^ (i - (i / Chunks.calc_chunk_size v.length * Chunks.calc_chunk_size v.length
        + i % Chunks.calc_chunk_size v.length / Blocks.calc_block_size v.length
          * Blocks.calc_block_size v.length) + 1) := hkey_lt
    _ ≤ 2 ^ Blocks.calc_block_size v.length := Nat.pow_le_pow_right (by omega) (by omega)
  show v.onesBelow _ + v.onesIn _ _ + (PopcountTable.new _).popcount _ = _
  rw [RawBitVector.clone_sub, popcount_table_eq _ _ hkey_lt_bl,
    blockBits_countOnes _ hw _ ht32]
  have htable : (List.range (i - (i / Chunks.calc_chunk_size v.length
        * Chunks.calc_chunk_size v.length
      + i % Chunks.calc_chunk_size v.length / Blocks.calc_block_size v.length
        * Blocks.calc_block_size v.length) + 1)).countP
      (fun q => (v.copy_sub
        (i / Chunks.calc_chunk_size v.length * Chunks.calc_chunk_size v.length
          + i % Chunks.calc_chunk_size v.length / Blocks.calc_block_size v.length
            * Blocks.calc_block_size v.length)
        (Blocks.this_block_size v.length (Blocks.calc_block_size v.length)
          (i / Chunks.calc_chunk_size v.length * Chunks.calc_chunk_size v.length
            + i % Chunks.calc_chunk_size v.length / Blocks.calc_block_size v.length
              * Blocks.calc_block_size v.length))).access q)
      = v.onesIn (i / Chunks.calc_chunk_size v.length * Chunks.calc_chunk_size v.length
          + i % Chunks.calc_chunk_size v.length / Blocks.calc_block_size v.length
            * Blocks.calc_block_size v.length)
          (i - (i / Chunks.calc_chunk_size v.length * Chunks.calc_chunk_size v.length
            + i % Chunks.calc_chunk_size v.length / Blocks.calc_block_size v.length
              * Blocks.calc_block_size v.length) + 1) := by
    apply countP_congr_eq
    intro q hq
    have hqlt := List.mem_range.mp hq
    exact copy_sub_access v _ _ q hb (by omega)
  rw [htable]
  -- assemble the three interval counts
  rw [← onesBelow_add, ← onesBelow_add]
  congr 1
  omega

/-! ## From `Fid.build` to boolean sequences -/

theorem build_rbv_eq (byte_vec : List Nat) (lbl : Nat) (hnz : byte_vec ≠ [])
    (hl1 : 1 ≤ lbl) (hl8 : lbl ≤ 8) :
    (Fid.build byte_vec lbl).rbv = ⟨byte_vec, lbl⟩ := by
  unfold Fid.build Fid.rbv
  simp only []
  congr 1
  have hL : 1 ≤ byte_vec.length := List.length_pos.mpr hnz
  by_cases h8 : lbl = 8
  · subst h8
    have hmod : ((byte_vec.length - 1) * 8 + 8) % 8 = 0 := by omega
    rw [hmod]
    rfl
  · have hmod : ((byte_vec.length - 1) * 8 + lbl) % 8 = lbl := by omega
    rw [hmod, if_neg (by omega)]

theorem build_bit_len (byte_vec : List Nat) (lbl : Nat) :
    (Fid.build byte_vec lbl).bit_len = RawBitVector.length ⟨byte_vec, lbl⟩ := rfl

theorem build_chunks (byte_vec : List Nat) (lbl : Nat) :
    (Fid.build byte_vec lbl).chunks = Chunks.new ⟨byte_vec, lbl⟩ := rfl

theorem build_table (byte_vec : List Nat) (lbl : Nat) :
    (Fid.build byte_vec lbl).table
      = PopcountTable.new (Blocks.calc_block_size
          (RawBitVector.length ⟨byte_vec, lbl⟩)) := rfl

/-- The well-formedness facts shared by the two construction paths: nonzero buffer,
`u8` bytes, a last byte holding 1–8 bits, the advertised bit length, and bitwise
agreement with the source boolean sequence. -/
def buildsFrom (byte_vec : List Nat) (lbl : Nat) (bits : List Bool) : Prop :=
  byte_vec ≠ [] ∧ (∀ b ∈ byte_vec, b < 256) ∧ 1 ≤ lbl ∧ lbl ≤ 8 ∧
  RawBitVector.length ⟨byte_vec, lbl⟩ = bits.length ∧
  (∀ j, RawBitVector.access ⟨byte_vec, lbl⟩ j = bits.getD j false)

theorem from_bools_buildsFrom (bits : List Bool) (hne : bits ≠ []) :
    buildsFrom (toByteVec bits) (if bits.length % 8 = 0 then 8 else bits.length % 8) bits := by
  have hN : 1 ≤ bits.length := by
    cases bits with
    | nil => exact absurd rfl hne
    | cons a t => simp
  have hlen := toByteVec_length bits
  refine ⟨?_, toByteVec_bytes_lt bits, ?_, ?_, ?_, ?_⟩
  · intro h
    have : (toByteVec bits).length = 0 := by rw [h]; rfl
    omega
  · split <;> omega
  · split <;> omega
  · show ((toByteVec bits).length - 1) * 8
        + (if bits.length % 8 = 0 then 8 else bits.length % 8) = bits.length
    rw [hlen]
    split <;> omega
  · intro j
    exact access_toByteVec bits _ j

theorem from_bits_buildsFrom (bits : List Bool) (hne : bits ≠ []) :
    buildsFrom (RawBitVector.from_bits bits).byte_vec
      (RawBitVector.from_bits bits).last_byte_len bits := by
  have hN : 1 ≤ bits.length := by
    cases bits with
    | nil => exact absurd rfl hne
    | cons a t => simp
  have hlen := from_bits_byte_len bits
  have hlbl := from_bits_last_byte_len bits
  refine ⟨?_, from_bits_bytes_lt bits, ?_, ?_, ?_, ?_⟩
  · intro h
    have : (RawBitVector.from_bits bits).byte_vec.length = 0 := by rw [h]; rfl
    omega
  · rw [hlbl]; split <;> omega
  · rw [hlbl]; split <;> omega
  · show ((RawBitVector.from_bits bits).byte_vec.length - 1) * 8
        + (RawBitVector.from_bits bits).last_byte_len = bits.length
    rw [hlen, hlbl]
    split <;> omega
  · intro j
    have h := from_bits_access bits j
    have hv : (⟨(RawBitVector.from_bits bits).byte_vec,
        (RawBitVector.from_bits bits).last_byte_len⟩ : RawBitVector)
        = RawBitVector.from_bits bits := rfl
    rw [hv]
    exact h

theorem countP_range_getD (bits : List Bool) :
    (List.range bits.length).countP (fun j => bits.getD j false) = bits.count true := by
  induction bits with
  | nil => rfl
  | cons b rest ih =>
    have h1 : (b :: rest).length = 1 + rest.length := by simp [List.length_cons]; omega
    rw [h1, countP_range_add]
    have h2 : (List.range 1).countP (fun j => (b :: rest).getD j false)
        = if b then 1 else 0 := by
      show ([0].countP fun j => (b :: rest).getD j false) = _
      rw [List.countP_cons, List.countP_nil]
      cases b <;> simp
    have h3 : (List.range rest.length).countP (fun t => (b :: rest).getD (1 + t) false)
        = (List.range rest.length).countP (fun j => rest.getD j false) := by
      apply countP_congr_eq
      intro t _
      show (b :: rest).getD (1 + t) false = rest.getD t false
      have : 1 + t = t + 1 := by omega
      rw [this]
      rfl
    rw [h2, h3, ih, List.count_cons]
    cases b <;> simp [Nat.add_comm]

/-- `onesBelow` over the whole built vector is the number of `true`s of the source. -/
theorem onesBelow_eq_count (byte_vec : List Nat) (lbl : Nat) (bits : List Bool)
    (hbf : buildsFrom byte_vec lbl bits) :
    RawBitVector.onesBelow ⟨byte_vec, lbl⟩ bits.length = bits.count true := by
  obtain ⟨_, _, _, _, _, hacc⟩ := hbf
  unfold RawBitVector.onesBelow
  rw [countP_congr_eq _ _ _ (fun j _ => hacc j)]
  exact countP_range_getD bits

theorem onesBelow_eq_specRank (byte_vec : List Nat) (lbl : Nat) (bits : List Bool)
    (hbf : buildsFrom byte_vec lbl bits) (i : Nat) :
    RawBitVector.onesBelow ⟨byte_vec, lbl⟩ (i + 1) = specRank bits i := by
  obtain ⟨_, _, _, _, _, hacc⟩ := hbf
  unfold RawBitVector.onesBelow specRank
  exact countP_congr_eq _ _ _ (fun j _ => hacc j)

/-- `Fid::rank` over either construction path counts the source sequence's 1-bits. -/
theorem build_rank_eq (byte_vec : List Nat) (lbl : Nat) (bits : List Bool)
    (hbf : buildsFrom byte_vec lbl bits) (hn64 : bits.length < 2 ^ 64)
    (i : Nat) (hi : i < bits.length) :
    (Fid.build byte_vec lbl).rank i = specRank bits i := by
  obtain ⟨hnz, hb, hl1, hl8, hlen, hacc⟩ := hbf
  rw [rank_eq_core (Fid.build byte_vec lbl) ⟨byte_vec, lbl⟩ (build_chunks ..) (build_table ..)
    (build_bit_len ..) (build_rbv_eq byte_vec lbl hnz hl1 hl8) hb (by omega) i (by omega)]
  exact onesBelow_eq_specRank byte_vec lbl bits ⟨hnz, hb, hl1, hl8, hlen, hacc⟩ i

theorem specRank0_eq (bits : List Bool) (i : Nat) :
    specRank0 bits i = (i + 1) - specRank bits i := by
  unfold specRank0 specRank
  have h := List.length_eq_countP_add_countP (fun j => bits.getD j false)
    (List.range (i + 1))
  rw [List.length_range] at h
  have h2 : (List.range (i + 1)).countP (fun a => decide ¬(bits.getD a false = true))
      = (List.range (i + 1)).countP (fun j => !bits.getD j false) := by
    apply countP_congr_eq
    intro a _
    cases bits.getD a false <;> simp
  omega

theorem specRank_le (bits : List Bool) (i : Nat) : specRank bits i ≤ i + 1 := by
  unfold specRank
  calc _ ≤ (List.range (i + 1)).length := List.countP_le_length _
  _ = i + 1 := List.length_range _

/-- `Fid::rank0` over either construction path counts the source sequence's 0-bits. -/
theorem build_rank0_eq (byte_vec : List Nat) (lbl : Nat) (bits : List Bool)
    (hbf : buildsFrom byte_vec lbl bits) (hn64 : bits.length < 2 ^ 64)
    (i : Nat) (hi : i < bits.length) :
    (Fid.build byte_vec lbl).rank0 i = specRank0 bits i := by
  unfold Fid.rank0
  rw [build_rank_eq byte_vec lbl bits hbf hn64 i hi, specRank0_eq]

/-! ## Select: the binary search and its characterisation -/

theorem specRank_mono (bits : List Bool) (a b : Nat) (h : a ≤ b) :
    specRank bits a ≤ specRank bits b := by
  unfold specRank
  exact countP_range_mono (a + 1) (b + 1) _ (by omega)

theorem specRank_succ (bits : List Bool) (i : Nat) :
    specRank bits (i + 1)
      = specRank bits i + (if bits.getD (i + 1) false then 1 else 0) := by
  unfold specRank
  rw [countP_range_succ]

theorem specRank_zero (bits : List Bool) :
    specRank bits 0 = if bits.getD 0 false then 1 else 0 := by
  unfold specRank
  rw [List.range_succ, List.range_zero, List.nil_append, List.countP_cons, List.countP_nil]
  cases h : bits.getD 0 false <;> simp [h]

theorem specRank_last (bits : List Bool) (h : 1 ≤ bits.length) :
    specRank bits (bits.length - 1) = bits.count true := by
  unfold specRank
  have : bits.length - 1 + 1 = bits.length := by omega
  rw [this, countP_range_getD]

/-- If the counter strictly increases at `r`, the bit at `r` is set. -/
theorem specRank_getD_true (bits : List Bool) (r num : Nat)
    (hr : specRank bits r = num)
    (hlt : specRank bits (r - 1) < num) : bits.getD r false = true := by
  cases h : bits.getD r false
  · exfalso
    rcases Nat.eq_zero_or_pos r with h0 | hpos
    · subst h0
      rw [Nat.zero_sub] at hlt
      omega
    · have ht : r = (r - 1) + 1 := by omega
      rw [ht, specRank_succ] at hr
      rw [← ht] at hr
      rw [h] at hr
      simp at hr
      omega
  · rfl

/-- Dually for the zero counter. -/
theorem specRank0_mono (bits : List Bool) (a b : Nat) (h : a ≤ b) :
    specRank0 bits a ≤ specRank0 bits b := by
  unfold specRank0
  exact countP_range_mono (a + 1) (b + 1) _ (by omega)

theorem specRank0_succ (bits : List Bool) (i : Nat) :
    specRank0 bits (i + 1)
      = specRank0 bits i + (if bits.getD (i + 1) false then 0 else 1) := by
  unfold specRank0
  rw [countP_range_succ]
  cases h : bits.getD (i + 1) false <;> simp [h]

theorem specRank0_zero (bits : List Bool) :
    specRank0 bits 0 = if bits.getD 0 false then 0 else 1 := by
  unfold specRank0
  rw [List.range_succ, List.range_zero, List.nil_append, List.countP_cons, List.countP_nil]
  cases h : bits.getD 0 false <;> simp [h]

theorem count_true_add_count_false (bits : List Bool) :
    bits.count true + bits.count false = bits.length := by
  induction bits with
  | nil => rfl
  | cons b rest ih =>
    cases b <;> simp [List.count_cons] <;> omega

theorem specRank0_last (bits : List Bool) (h : 1 ≤ bits.length) :
    specRank0 bits (bits.length - 1) = bits.count false := by
  rw [specRank0_eq, specRank_last bits h]
  have := count_true_add_count_false bits
  have hle : bits.count true ≤ bits.length := by omega
  omega

theorem specRank0_getD_false (bits : List Bool) (r num : Nat)
    (hr : specRank0 bits r = num)
    (hlt : specRank0 bits (r - 1) < num) : bits.getD r false = false := by
  cases h : bits.getD r false
  · rfl
  · exfalso
    rcases Nat.eq_zero_or_pos r with h0 | hpos
    · subst h0
      rw [Nat.zero_sub] at hlt
      omega
    · have ht : r = (r - 1) + 1 := by omega
      rw [ht, specRank0_succ] at hr
      rw [← ht] at hr
      rw [h] at hr
      simp at hr
      omega

/-- The binary search `while ok - ng > 1 { mid := (ok+ng)/2; ... }` returns, given the
invariant `g ng < num ≤ g ok`, a position `r ∈ (ng, ok]` with `num ≤ g r` and
`g (r - 1) < num`, provided the fuel covers the initial gap. -/
theorem searchLoop_spec (g : Nat → Nat) (num : Nat) :
    ∀ fuel ng ok, ng < ok → ok - ng ≤ fuel → g ng < num → num ≤ g ok →
      ng < Fid.searchLoop g num fuel ng ok ∧ Fid.searchLoop g num fuel ng ok ≤ ok ∧
      num ≤ g (Fid.searchLoop g num fuel ng ok) ∧
      g (Fid.searchLoop g num fuel ng ok - 1) < num := by
  intro fuel
  induction fuel with
  | zero =>
    intro ng ok h1 h2 _ _
    omega
  | succ fuel ih =>
    intro ng ok hlt hfuel hng hok
    rw [show Fid.searchLoop g num (fuel + 1) ng ok
        = if ok - ng > 1 then
            (if g ((ok + ng) / 2) ≥ num then Fid.searchLoop g num fuel ng ((ok + ng) / 2)
             else Fid.searchLoop g num fuel ((ok + ng) / 2) ok)
          else ok from rfl]
    by_cases hgap : ok - ng > 1
    · rw [if_pos hgap]
      have hmid1 : ng < (ok + ng) / 2 := by omega
      have hmid2 : (ok + ng) / 2 < ok := by omega
      by_cases hgm : g ((ok + ng) / 2) ≥ num
      · rw [if_pos hgm]
        have h := ih ng ((ok + ng) / 2) hmid1 (by omega) hng hgm
        exact ⟨h.1, by omega, h.2.2.1, h.2.2.2⟩
      · rw [if_neg hgm]
        have h := ih ((ok + ng) / 2) ok hmid2 (by omega) (by omega) hok
        exact ⟨by omega, h.2.1, h.2.2.1, h.2.2.2⟩
    · rw [if_neg hgap]
      have hok1 : ok - 1 = ng := by omega
      rw [hok1]
      exact ⟨hlt, Nat.le_refl ok, hok, hng⟩

theorem build_len_eq (byte_vec : List Nat) (lbl : Nat) (bits : List Bool)
    (hbf : buildsFrom byte_vec lbl bits) :
    (Fid.build byte_vec lbl).len = bits.length := hbf.2.2.2.2.1

theorem build_index_eq (byte_vec : List Nat) (lbl : Nat) (bits : List Bool)
    (hbf : buildsFrom byte_vec lbl bits) (j : Nat) :
    (Fid.build byte_vec lbl).index j = bits.getD j false := by
  obtain ⟨hnz, _, hl1, hl8, _, hacc⟩ := hbf
  unfold Fid.index
  rw [build_rbv_eq byte_vec lbl hnz hl1 hl8]
  exact hacc j

theorem select_eq_zero (byte_vec : List Nat) (lbl : Nat) :
    (Fid.build byte_vec lbl).select 0 = some 0 := by
  unfold Fid.select
  rw [if_pos (Or.inl rfl)]

theorem select0_eq_zero (byte_vec : List Nat) (lbl : Nat) :
    (Fid.build byte_vec lbl).select0 0 = some 0 := by
  unfold Fid.select0
  rw [if_pos (Or.inl rfl)]

/-- `select num` for `1 ≤ num ≤ popcount` returns the smallest index whose rank is
`num` (which moreover carries a set bit). -/
theorem build_select_some (byte_vec : List Nat) (lbl : Nat) (bits : List Bool)
    (hbf : buildsFrom byte_vec lbl bits) (hn64 : bits.length < 2 ^ 64)
    (num : Nat) (h1 : 1 ≤ num) (hcnt : num ≤ bits.count true) :
    ∃ r, (Fid.build byte_vec lbl).select num = some r ∧ r < bits.length ∧
      specRank bits r = num ∧ (∀ j, j < r → specRank bits j < num) ∧
      bits.getD r false = true := by
  have hN : 1 ≤ bits.length := by
    by_contra h
    have hb : bits = [] := by
      cases bits with
      | nil => rfl
      | cons a t => exact absurd (by simp : 1 ≤ (a :: t).length) h
    rw [hb] at hcnt
    simp at hcnt
    omega
  have hrank : ∀ i, i < bits.length →
      (Fid.build byte_vec lbl).rank i = specRank bits i :=
    fun i hi => build_rank_eq byte_vec lbl bits hbf hn64 i hi
  have hlen := build_len_eq byte_vec lbl bits hbf
  have hidx := build_index_eq byte_vec lbl bits hbf 0
  unfold Fid.select
  by_cases h0 : num = 1 ∧ (Fid.build byte_vec lbl).index 0 = true
  · rw [if_pos (Or.inr h0)]
    refine ⟨0, rfl, by omega, ?_, fun j hj => absurd hj (by omega), ?_⟩
    · rw [specRank_zero, ← hidx, h0.2, h0.1]
      rfl
    · rw [← hidx]
      exact h0.2
  · rw [if_neg (by
      intro h
      rcases h with h | h
      · omega
      · exact h0 h)]
    have hlast : (Fid.build byte_vec lbl).rank ((Fid.build byte_vec lbl).len - 1)
        = bits.count true := by
      rw [hlen, hrank (bits.length - 1) (by omega), specRank_last bits hN]
    have hN2 : 2 ≤ bits.length := by
      by_contra h
      have hN1 : bits.length = 1 := by omega
      have hc1 : bits.count true ≤ 1 := by
        calc bits.count true ≤ bits.length := List.count_le_length true bits
        _ = 1 := hN1
      have hnum1 : num = 1 := by omega
      have hcnt1 : bits.count true = 1 := by omega
      have : specRank bits 0 = 1 := by
        have := specRank_last bits hN
        rw [hN1] at this
        rw [this, hcnt1]
      rw [specRank_zero] at this
      have hg : bits.getD 0 false = true := by
        cases h : bits.getD 0 false
        · rw [h] at this
          simp at this
        · rfl
      exact h0 ⟨hnum1, by rw [hidx]; exact hg⟩
    rw [if_neg (by rw [hlast]; omega)]
    have hr0 : (Fid.build byte_vec lbl).rank 0 < num := by
      rw [hrank 0 (by omega), specRank_zero]
      by_cases hg : bits.getD 0 false = true
      · have : ¬(num = 1) := fun h => h0 ⟨h, by rw [hidx]; exact hg⟩
        rw [if_pos hg]
        omega
      · rw [if_neg hg]
        omega
    have hsearch := searchLoop_spec (fun i => (Fid.build byte_vec lbl).rank i) num
      (Fid.build byte_vec lbl).len 0 ((Fid.build byte_vec lbl).len - 1)
      (by omega) (by omega) hr0 (by
        show num ≤ (Fid.build byte_vec lbl).rank ((Fid.build byte_vec lbl).len - 1)
        rw [hlast]; exact hcnt)
    set r := Fid.searchLoop (fun i => (Fid.build byte_vec lbl).rank i) num
      (Fid.build byte_vec lbl).len 0 ((Fid.build byte_vec lbl).len - 1) with hrdef
    obtain ⟨hrpos, hrle, hrge0, hrlt0⟩ := hsearch
    have hrN : r < bits.length := by omega
    have hr1N : r - 1 < bits.length := by omega
    have hrge : num ≤ (Fid.build byte_vec lbl).rank r := hrge0
    have hrlt : (Fid.build byte_vec lbl).rank (r - 1) < num := hrlt0
    rw [hrank r hrN] at hrge
    rw [hrank (r - 1) hr1N] at hrlt
    have hstep : specRank bits r ≤ specRank bits (r - 1) + 1 := by
      have hre : r = (r - 1) + 1 := by omega
      rw [hre, specRank_succ, ← hre]
      split <;> omega
    have hreq : specRank bits r = num := by omega
    refine ⟨r, rfl, hrN, hreq, ?_, ?_⟩
    · intro j hj
      calc specRank bits j ≤ specRank bits (r - 1) := specRank_mono bits j (r - 1) (by omega)
      _ < num := hrlt
    · exact specRank_getD_true bits r num hreq hrlt

/-- `select num = none` exactly when `num` exceeds the total popcount (for `num ≥ 1`). -/
theorem build_select_none_iff (byte_vec : List Nat) (lbl : Nat) (bits : List Bool)
    (hbf : buildsFrom byte_vec lbl bits) (hn64 : bits.length < 2 ^ 64)
    (hne : bits ≠ []) (num : Nat) (h1 : 1 ≤ num) :
    ((Fid.build byte_vec lbl).select num = none ↔ bits.count true < num) := by
  have hN : 1 ≤ bits.length := by
    cases bits with
    | nil => exact absurd rfl hne
    | cons a t => simp
  have hrank : ∀ i, i < bits.length →
      (Fid.build byte_vec lbl).rank i = specRank bits i :=
    fun i hi => build_rank_eq byte_vec lbl bits hbf hn64 i hi
  have hlen := build_len_eq byte_vec lbl bits hbf
  have hidx := build_index_eq byte_vec lbl bits hbf 0
  have hlast : (Fid.build byte_vec lbl).rank ((Fid.build byte_vec lbl).len - 1)
      = bits.count true := by
    rw [hlen, hrank (bits.length - 1) (by omega), specRank_last bits hN]
  unfold Fid.select
  by_cases h0 : num = 1 ∧ (Fid.build byte_vec lbl).index 0 = true
  · rw [if_pos (Or.inr h0)]
    constructor
    · intro h
      exact absurd h (by simp)
    · intro h
      have hg : bits.getD 0 false = true := by rw [← hidx]; exact h0.2
      have : 1 ≤ bits.count true := by
        have hz : specRank bits 0 = 1 := by rw [specRank_zero, hg]; rfl
        have := specRank_mono bits 0 (bits.length - 1) (by omega)
        rw [specRank_last bits hN, hz] at this
        omega
      omega
  · rw [if_neg (by
      intro h
      rcases h with h | h
      · omega
      · exact h0 h)]
    by_cases hcase : (Fid.build byte_vec lbl).rank ((Fid.build byte_vec lbl).len - 1) < num
    · rw [if_pos hcase]
      rw [hlast] at hcase
      exact ⟨fun _ => hcase, fun _ => rfl⟩
    · rw [if_neg hcase]
      rw [hlast] at hcase
      exact ⟨fun h => absurd h (by simp), fun h => absurd h hcase⟩

/-- `select0 num` for `1 ≤ num ≤` the zero count returns the smallest index whose
`rank0` is `num` (which moreover carries a clear bit). -/
theorem build_select0_some (byte_vec : List Nat) (lbl : Nat) (bits : List Bool)
    (hbf : buildsFrom byte_vec lbl bits) (hn64 : bits.length < 2 ^ 64)
    (num : Nat) (h1 : 1 ≤ num) (hcnt : num ≤ bits.count false) :
    ∃ r, (Fid.build byte_vec lbl).select0 num = some r ∧ r < bits.length ∧
      specRank0 bits r = num ∧ (∀ j, j < r → specRank0 bits j < num) ∧
      bits.getD r false = false := by
  have hN : 1 ≤ bits.length := by
    by_contra h
    have hb : bits = [] := by
      cases bits with
      | nil => rfl
      | cons a t => exact absurd (by simp : 1 ≤ (a :: t).length) h
    rw [hb] at hcnt
    simp at hcnt
    omega
  have hrank0 : ∀ i, i < bits.length →
      (Fid.build byte_vec lbl).rank0 i = specRank0 bits i :=
    fun i hi => build_rank0_eq byte_vec lbl bits hbf hn64 i hi
  have hlen := build_len_eq byte_vec lbl bits hbf
  have hidx := build_index_eq byte_vec lbl bits hbf 0
  unfold Fid.select0
  by_cases h0 : num = 1 ∧ (Fid.build byte_vec lbl).index 0 = false
  · rw [if_pos (Or.inr h0)]
    refine ⟨0, rfl, by omega, ?_, fun j hj => absurd hj (by omega), ?_⟩
    · rw [specRank0_zero, ← hidx, h0.2, h0.1]
      rfl
    · rw [← hidx]
      exact h0.2
  · rw [if_neg (by
      intro h
      rcases h with h | h
      · omega
      · exact h0 h)]
    have hlast : (Fid.build byte_vec lbl).rank0 ((Fid.build byte_vec lbl).len - 1)
        = bits.count false := by
      rw [hlen, hrank0 (bits.length - 1) (by omega), specRank0_last bits hN]
    have hN2 : 2 ≤ bits.length := by
      by_contra h
      have hN1 : bits.length = 1 := by omega
      have hc1 : bits.count false ≤ 1 := by
        calc bits.count false ≤ bits.length := List.count_le_length false bits
        _ = 1 := hN1
      have hnum1 : num = 1 := by omega
      have hcnt1 : bits.count false = 1 := by omega
      have : specRank0 bits 0 = 1 := by
        have := specRank0_last bits hN
        rw [hN1] at this
        rw [this, hcnt1]
      rw [specRank0_zero] at this
      have hg : bits.getD 0 false = false := by
        cases h : bits.getD 0 false
        · rfl
        · rw [h] at this
          simp at this
      exact h0 ⟨hnum1, by rw [hidx]; exact hg⟩
    rw [if_neg (by rw [hlast]; omega)]
    have hr0 : (Fid.build byte_vec lbl).rank0 0 < num := by
      rw [hrank0 0 (by omega), specRank0_zero]
      by_cases hg : bits.getD 0 false = true
      · rw [if_pos hg]
        omega
      · have hgf : bits.getD 0 false = false := by
          cases h : bits.getD 0 false
          · rfl
          · exact absurd h hg
        have : ¬(num = 1) := fun h => h0 ⟨h, by rw [hidx]; exact hgf⟩
        rw [if_neg hg]
        omega
    have hsearch := searchLoop_spec (fun i => (Fid.build byte_vec lbl).rank0 i) num
      (Fid.build byte_vec lbl).len 0 ((Fid.build byte_vec lbl).len - 1)
      (by omega) (by omega) hr0 (by
        show num ≤ (Fid.build byte_vec lbl).rank0 ((Fid.build byte_vec lbl).len - 1)
        rw [hlast]; exact hcnt)
    set r := Fid.searchLoop (fun i => (Fid.build byte_vec lbl).rank0 i) num
      (Fid.build byte_vec lbl).len 0 ((Fid.build byte_vec lbl).len - 1) with hrdef
    obtain ⟨hrpos, hrle, hrge0, hrlt0⟩ := hsearch
    have hrN : r < bits.length := by omega
    have hr1N : r - 1 < bits.length := by omega
    have hrge : num ≤ (Fid.build byte_vec lbl).rank0 r := hrge0
    have hrlt : (Fid.build byte_vec lbl).rank0 (r - 1) < num := hrlt0
    rw [hrank0 r hrN] at hrge
    rw [hrank0 (r - 1) hr1N] at hrlt
    have hstep : specRank0 bits r ≤ specRank0 bits (r - 1) + 1 := by
      have hre : r = (r - 1) + 1 := by omega
      rw [hre, specRank0_succ, ← hre]
      split <;> omega
    have hreq : specRank0 bits r = num := by omega
    refine ⟨r, rfl, hrN, hreq, ?_, ?_⟩
    · intro j hj
      calc specRank0 bits j ≤ specRank0 bits (r - 1) :=
        specRank0_mono bits j (r - 1) (by omega)
      _ < num := hrlt
    · exact specRank0_getD_false bits r num hreq hrlt

/-- `select0 num = none` exactly when `num` exceeds the total zero count
(for `num ≥ 1`). -/
theorem build_select0_none_iff (byte_vec : List Nat) (lbl : Nat) (bits : List Bool)
    (hbf : buildsFrom byte_vec lbl bits) (hn64 : bits.length < 2 ^ 64)
    (hne : bits ≠ []) (num : Nat) (h1 : 1 ≤ num) :
    ((Fid.build byte_vec lbl).select0 num = none ↔ bits.count false < num) := by
  have hN : 1 ≤ bits.length := by
    cases bits with
    | nil => exact absurd rfl hne
    | cons a t => simp
  have hrank0 : ∀ i, i < bits.length →
      (Fid.build byte_vec lbl).rank0 i = specRank0 bits i :=
    fun i hi => build_rank0_eq byte_vec lbl bits hbf hn64 i hi
  have hlen := build_len_eq byte_vec lbl bits hbf
  have hidx := build_index_eq byte_vec lbl bits hbf 0
  have hlast : (Fid.build byte_vec lbl).rank0 ((Fid.build byte_vec lbl).len - 1)
      = bits.count false := by
    rw [hlen, hrank0 (bits.length - 1) (by omega), specRank0_last bits hN]
  unfold Fid.select0
  by_cases h0 : num = 1 ∧ (Fid.build byte_vec lbl).index 0 = false
  · rw [if_pos (Or.inr h0)]
    constructor
    · intro h
      exact absurd h (by simp)
    · intro h
      have hg : bits.getD 0 false = false := by rw [← hidx]; exact h0.2
      have : 1 ≤ bits.count false := by
        have hz : specRank0 bits 0 = 1 := by rw [specRank0_zero, hg]; rfl
        have := specRank0_mono bits 0 (bits.length - 1) (by omega)
        rw [specRank0_last bits hN, hz] at this
        omega
      omega
  · rw [if_neg (by
      intro h
      rcases h with h | h
      · omega
      · exact h0 h)]
    by_cases hcase : (Fid.build byte_vec lbl).rank0 ((Fid.build byte_vec lbl).len - 1) < num
    · rw [if_pos hcase]
      rw [hlast] at hcase
      exact ⟨fun _ => hcase, fun _ => rfl⟩
    · rw [if_neg hcase]
      rw [hlast] at hcase
      exact ⟨fun h => absurd h (by simp), fun h => absurd h hcase⟩

/-! ## LBS validation (LOUDS builder) -/

/-- The LBS conditions as the specification words them: starts with "10", every
prefix has `count('0') ≤ count('1') + 1`, and the whole string has
`count('0') = count('1') + 1`.  Stated over prefixes `take k`, independently of the
loop structure of `validate_lbs`. -/
def specLbsValid (s : List Bool) : Prop :=
  s.take 2 = [true, false] ∧
  (∀ k, k ≤ s.length → (s.take k).count false ≤ (s.take k).count true + 1) ∧
  s.count false = s.count true + 1

instance (s : List Bool) : Decidable (specLbsValid s) := by
  unfold specLbsValid
  infer_instance

theorem startsWith_iff (s : List Bool) :
    (match s with | true :: false :: _ => true | _ => false) = true
      ↔ s.take 2 = [true, false] := by
  match s with
  | [] => simp
  | [a] => cases a <;> simp
  | a :: b :: t => cases a <;> cases b <;> simp

theorem checkPrefixes_sound : ∀ (l : List Bool) (c0 c1 : Nat),
    checkPrefixes c0 c1 l = true → ∀ k, 1 ≤ k → k ≤ l.length →
      c0 + (l.take k).count false ≤ c1 + (l.take k).count true + 1 := by
  intro l
  induction l with
  | nil =>
    intro c0 c1 _ k hk1 hk2
    simp at hk2
    omega
  | cons b rest ih =>
    intro c0 c1 h k hk1 hk2
    rw [show checkPrefixes c0 c1 (b :: rest)
        = (decide ((if b then c0 else c0 + 1) ≤ (if b then c1 + 1 else c1) + 1) &&
           checkPrefixes (if b then c0 else c0 + 1) (if b then c1 + 1 else c1) rest)
        from rfl] at h
    rw [Bool.and_eq_true, decide_eq_true_iff] at h
    obtain ⟨hd, ht⟩ := h
    have hke : k = (k - 1) + 1 := by omega
    rw [hke, List.take_succ_cons]
    rcases Nat.eq_zero_or_pos (k - 1) with h0 | hpos
    · rw [h0, List.take_zero]
      cases b <;> simp at hd ⊢ <;> omega
    · have hih := ih _ _ ht (k - 1) hpos (by simp at hk2; omega)
      cases b <;> simp [List.count_cons] at hih ⊢ <;> omega

theorem checkPrefixes_complete : ∀ (l : List Bool) (c0 c1 : Nat),
    (∀ k, 1 ≤ k → k ≤ l.length →
      c0 + (l.take k).count false ≤ c1 + (l.take k).count true + 1) →
    checkPrefixes c0 c1 l = true := by
  intro l
  induction l with
  | nil => intro c0 c1 _; rfl
  | cons b rest ih =>
    intro c0 c1 h
    rw [show checkPrefixes c0 c1 (b :: rest)
        = (decide ((if b then c0 else c0 + 1) ≤ (if b then c1 + 1 else c1) + 1) &&
           checkPrefixes (if b then c0 else c0 + 1) (if b then c1 + 1 else c1) rest)
        from rfl]
    rw [Bool.and_eq_true, decide_eq_true_iff]
    constructor
    · have h1 := h 1 (by omega) (by simp)
      rw [show (1 : Nat) = 0 + 1 from rfl, List.take_succ_cons, List.take_zero] at h1
      cases b <;> simp [List.count_cons] at h1 ⊢ <;> omega
    · apply ih
      intro k hk1 hk2
      have hk := h (k + 1) (by omega) (by simp; omega)
      rw [List.take_succ_cons] at hk
      cases b <;> simp [List.count_cons] at hk ⊢ <;> omega

/-- `validate_lbs` (the source's assert loop) decides exactly the specification's
three LBS conditions. -/
theorem validate_lbs_iff (s : List Bool) : validate_lbs s = true ↔ specLbsValid s := by
  unfold validate_lbs specLbsValid
  rw [Bool.and_eq_true, Bool.and_eq_true, decide_eq_true_iff, startsWith_iff]
  constructor
  · intro ⟨⟨h1, h2⟩, h3⟩
    refine ⟨h1, ?_, h3⟩
    intro k hk
    rcases Nat.eq_zero_or_pos k with h0 | hpos
    · rw [h0, List.take_zero]
      simp
    · have := checkPrefixes_sound s 0 0 h2 k hpos hk
      omega
  · intro ⟨h1, h2, h3⟩
    refine ⟨⟨h1, ?_⟩, h3⟩
    apply checkPrefixes_complete
    intro k hk1 hk2
    have := h2 k hk2
    omega

/-! ## The children scan of `parent_to_children` -/

/-- If the counter of zeros strictly grows between `a` and `b`, some position in
`(a, b]` holds a zero. -/
theorem specRank0_exists_zero (bits : List Bool) :
    ∀ (b a : Nat), specRank0 bits a < specRank0 bits b →
      ∃ j, a < j ∧ j ≤ b ∧ bits.getD j false = false := by
  intro b
  induction b with
  | zero =>
    intro a h
    have := specRank0_mono bits 0 a (by omega)
    omega
  | succ t ih =>
    intro a h
    by_cases hat : a ≤ t
    · cases hg : bits.getD (t + 1) false
      · exact ⟨t + 1, by omega, by omega, hg⟩
      · have hstep := specRank0_succ bits t
        rw [hg] at hstep
        simp at hstep
        rw [hstep] at h
        obtain ⟨j, hj1, hj2, hj3⟩ := ih a h
        exact ⟨j, hj1, by omega, hj3⟩
    · have := specRank0_mono bits (t + 1) a (by omega)
      omega

/-- The forward scan of `parent_to_children`: starting inside a run of ones that is
terminated by a zero at position `e < f.len`, it succeeds and returns exactly the run
`[i, e)`. -/
theorem scanChildren_spec (f : Fid) (e : Nat) (he : e < f.len)
    (hze : f.index e = false) :
    ∀ fuel i, i ≤ e → e - i < fuel → (∀ j, i ≤ j → j < e → f.index j = true) →
      scanChildren f fuel i = some (List.range' i (e - i)) := by
  intro fuel
  induction fuel with
  | zero =>
    intro i _ hfuel _
    omega
  | succ fuel ih =>
    intro i hie hfuel hones
    rw [show scanChildren f (fuel + 1) i
        = (if i < f.len then
            (if f.index i = true then (scanChildren f fuel (i + 1)).map (i :: ·)
             else some [])
           else none) from rfl]
    rw [if_pos (by omega)]
    rcases Nat.eq_or_lt_of_le hie with heq | hlt
    · rw [heq, hze]
      rw [show (e - e) = 0 from by omega, List.range'_zero]
      rfl
    · rw [if_pos (hones i (Nat.le_refl i) hlt)]
      rw [ih (i + 1) (by omega) (by omega) (fun j hj1 hj2 => hones j (by omega) hj2)]
      rw [show (e - i) = (e - (i + 1)) + 1 from by omega, List.range'_succ]
      rfl

/-! ## The claims -/

theorem ceil_div (N cs : Nat) (hcs : 1 ≤ cs) :
    N / cs + (if N % cs = 0 then 0 else 1) = (N + cs - 1) / cs := by
  have hdm := Nat.div_add_mod N cs
  by_cases h : N % cs = 0
  · rw [if_pos h]
    have he : N + cs - 1 = cs * (N / cs) + (cs - 1) := by omega
    rw [he, Nat.mul_add_div (by omega : 0 < cs)]
    rw [Nat.div_eq_of_lt (show cs - 1 < cs by omega)]
  · rw [if_neg h]
    have hmlt : N % cs < cs := Nat.mod_lt N (by omega)
    have hs : cs * (N / cs + 1) = cs * (N / cs) + cs := Nat.mul_succ cs (N / cs)
    have he : N + cs - 1 = cs * (N / cs + 1) + (N % cs - 1) := by omega
    rw [he, Nat.mul_add_div (by omega : 0 < cs)]
    rw [Nat.div_eq_of_lt (show N % cs - 1 < cs by omega)]

/-- C1: for every FID built from a non-empty boolean sequence `B` of length `N` and
every `i < N`, `rank(i)` counts the indices `j ≤ i` with `B[j] = 1` and `rank0(i)`
counts those with `B[j] = 0`. -/
theorem claim_C1 (bits : List Bool) (hne : bits ≠ []) (hn64 : bits.length < 2 ^ 64)
    (i : Nat) (hi : i < bits.length) :
    (Fid.from_bools bits).rank i = specRank bits i ∧
    (Fid.from_bools bits).rank0 i = specRank0 bits i :=
  ⟨build_rank_eq _ _ bits (from_bools_buildsFrom bits hne) hn64 i hi,
   build_rank0_eq _ _ bits (from_bools_buildsFrom bits hne) hn64 i hi⟩

theorem claim_C1_witness :
    ([true, false, true] : List Bool) ≠ [] ∧
    ([true, false, true] : List Bool).length < 2 ^ 64 ∧ 2 < ([true, false, true] : List Bool).length ∧
    ((Fid.from_bools [true, false, true]).rank 2 = specRank [true, false, true] 2 ∧
     (Fid.from_bools [true, false, true]).rank0 2 = specRank0 [true, false, true] 2) :=
  ⟨by decide, by norm_num, by decide,
   claim_C1 [true, false, true] (by decide) (by norm_num) 2 (by decide)⟩

/-- C2: `select(0)` and `select0(0)` return `Some 0`; for `k ∈ [1, N]`, `select(k)`
returns the smallest index whose rank is `k` when `k ≤ popcount(B)`, and is `None`
exactly when `k > popcount(B)`; symmetrically for `select0` with the 0-count. -/
theorem claim_C2 (bits : List Bool) (hne : bits ≠ []) (hn64 : bits.length < 2 ^ 64) :
    (Fid.from_bools bits).select 0 = some 0 ∧ (Fid.from_bools bits).select0 0 = some 0 ∧
    (∀ k, 1 ≤ k → k ≤ bits.length →
      ((k ≤ bits.count true → ∃ i, (Fid.from_bools bits).select k = some i ∧
          i < bits.length ∧ (Fid.from_bools bits).rank i = k ∧
          ∀ j, j < i → (Fid.from_bools bits).rank j ≠ k) ∧
       ((Fid.from_bools bits).select k = none ↔ bits.count true < k)) ∧
      ((k ≤ bits.count false → ∃ i, (Fid.from_bools bits).select0 k = some i ∧
          i < bits.length ∧ (Fid.from_bools bits).rank0 i = k ∧
          ∀ j, j < i → (Fid.from_bools bits).rank0 j ≠ k) ∧
       ((Fid.from_bools bits).select0 k = none ↔ bits.count false < k))) := by
  unfold Fid.from_bools
  have hbf := from_bools_buildsFrom bits hne
  refine ⟨select_eq_zero _ _, select0_eq_zero _ _, ?_⟩
  intro k hk1 hkN
  refine ⟨⟨?_, build_select_none_iff _ _ bits hbf hn64 hne k hk1⟩,
          ⟨?_, build_select0_none_iff _ _ bits hbf hn64 hne k hk1⟩⟩
  · intro hcnt
    obtain ⟨r, hsel, hrN, hrank, hmin, _⟩ := build_select_some _ _ bits hbf hn64 k hk1 hcnt
    refine ⟨r, hsel, hrN, ?_, ?_⟩
    · rw [build_rank_eq _ _ bits hbf hn64 r hrN]
      exact hrank
    · intro j hj
      rw [build_rank_eq _ _ bits hbf hn64 j (by omega)]
      have := hmin j hj
      omega
  · intro hcnt
    obtain ⟨r, hsel, hrN, hrank, hmin, _⟩ := build_select0_some _ _ bits hbf hn64 k hk1 hcnt
    refine ⟨r, hsel, hrN, ?_, ?_⟩
    · rw [build_rank0_eq _ _ bits hbf hn64 r hrN]
      exact hrank
    · intro j hj
      rw [build_rank0_eq _ _ bits hbf hn64 j (by omega)]
      have := hmin j hj
      omega

theorem claim_C2_witness :
    ([true, false] : List Bool) ≠ [] ∧
    (Fid.from_bools [true, false]).select 0 = some 0 ∧
    ((Fid.from_bools [true, false]).select0 2 = none
      ↔ ([true, false] : List Bool).count false < 2) := by
  have h := claim_C2 [true, false] (by decide) (by norm_num)
  exact ⟨by decide, h.1, ((h.2.2 2 (by decide) (by decide)).2).2⟩

/-- C3 counterexample: on the FID over the single bit 1 both `select(0)` and
`select(1)` return `Some 0`, so `select` is not strictly increasing from `k = 0`
as the claim states. -/
theorem claim_C3_counterexample :
    (0 : Nat) < 1 ∧ (Fid.from_bools [true]).select 0 = some 0 ∧
    (Fid.from_bools [true]).select 1 = some 0 ∧ ¬((0 : Nat) < 0) :=
  ⟨by decide, by decide, by decide, by decide⟩

/-- C3 (amended): `rank` and `rank0` are non-decreasing in `i`, and `select` /
`select0` are strictly increasing in `k` where defined once `k ≥ 1` (from `k = 0`
strictness fails, see the counterexample). -/
theorem claim_C3 (bits : List Bool) (hne : bits ≠ []) (hn64 : bits.length < 2 ^ 64) :
    (∀ i i', i ≤ i' → i' < bits.length →
      (Fid.from_bools bits).rank i ≤ (Fid.from_bools bits).rank i' ∧
      (Fid.from_bools bits).rank0 i ≤ (Fid.from_bools bits).rank0 i') ∧
    (∀ k k' i i', 1 ≤ k → k < k' →
      (Fid.from_bools bits).select k = some i →
      (Fid.from_bools bits).select k' = some i' → i < i') ∧
    (∀ k k' i i', 1 ≤ k → k < k' →
      (Fid.from_bools bits).select0 k = some i →
      (Fid.from_bools bits).select0 k' = some i' → i < i') := by
  unfold Fid.from_bools
  have hbf := from_bools_buildsFrom bits hne
  refine ⟨?_, ?_, ?_⟩
  · intro i i' hii hi'
    rw [build_rank_eq _ _ bits hbf hn64 i (by omega),
        build_rank_eq _ _ bits hbf hn64 i' hi',
        build_rank0_eq _ _ bits hbf hn64 i (by omega),
        build_rank0_eq _ _ bits hbf hn64 i' hi']
    exact ⟨specRank_mono bits i i' hii, specRank0_mono bits i i' hii⟩
  · intro k k' i i' hk hkk hsel hsel'
    have hk' : 1 ≤ k' := by omega
    have hcnt : k ≤ bits.count true := by
      by_contra hc
      have hnone := (build_select_none_iff _ _ bits hbf hn64 hne k hk).mpr (by omega)
      rw [hsel] at hnone
      exact absurd hnone (by simp)
    have hcnt' : k' ≤ bits.count true := by
      by_contra hc
      have hnone := (build_select_none_iff _ _ bits hbf hn64 hne k' hk').mpr (by omega)
      rw [hsel'] at hnone
      exact absurd hnone (by simp)
    obtain ⟨r, hselr, hrN, hrank, _, _⟩ := build_select_some _ _ bits hbf hn64 k hk hcnt
    obtain ⟨r', hselr', hrN', hrank', _, _⟩ :=
      build_select_some _ _ bits hbf hn64 k' hk' hcnt'
    rw [hsel] at hselr
    rw [hsel'] at hselr'
    obtain rfl : i = r := Option.some.inj hselr
    obtain rfl : i' = r' := Option.some.inj hselr'
    by_contra hge
    have := specRank_mono bits i' i (by omega)
    omega
  · intro k k' i i' hk hkk hsel hsel'
    have hk' : 1 ≤ k' := by omega
    have hcnt : k ≤ bits.count false := by
      by_contra hc
      have hnone := (build_select0_none_iff _ _ bits hbf hn64 hne k hk).mpr (by omega)
      rw [hsel] at hnone
      exact absurd hnone (by simp)
    have hcnt' : k' ≤ bits.count false := by
      by_contra hc
      have hnone := (build_select0_none_iff _ _ bits hbf hn64 hne k' hk').mpr (by omega)
      rw [hsel'] at hnone
      exact absurd hnone (by simp)
    obtain ⟨r, hselr, hrN, hrank, _, _⟩ := build_select0_some _ _ bits hbf hn64 k hk hcnt
    obtain ⟨r', hselr', hrN', hrank', _, _⟩ :=
      build_select0_some _ _ bits hbf hn64 k' hk' hcnt'
    rw [hsel] at hselr
    rw [hsel'] at hselr'
    obtain rfl : i = r := Option.some.inj hselr
    obtain rfl : i' = r' := Option.some.inj hselr'
    by_contra hge
    have := specRank0_mono bits i' i (by omega)
    omega

theorem claim_C3_witness :
    ([true, true] : List Bool) ≠ [] ∧
    ((Fid.from_bools [true, true]).select 1 = some 0 →
     (Fid.from_bools [true, true]).select 2 = some 1 → (0 : Nat) < 1) := by
  have h := claim_C3 [true, true] (by decide) (by norm_num)
  exact ⟨by decide, fun h1 h2 => h.2.1 1 2 0 1 (by decide) (by decide) h1 h2⟩

/-- C4 counterexample: the vector with byte buffer `[0b00000001]` and logical length
1 has no 1-bit in `[0, 1)`, yet `popcount` returns 1 — the trailing bit of the last
byte is counted. -/
theorem claim_C4_counterexample :
    RawBitVector.length ⟨[1], 1⟩ = 1 ∧ RawBitVector.onesBelow ⟨[1], 1⟩ 1 = 0 ∧
    RawBitVector.popcount ⟨[1], 1⟩ = 1 := by
  refine ⟨by decide, by decide, by decide⟩

/-- C4 (amended): `popcount` counts the set bits of the entire byte buffer — all
positions in `[0, 8·bytes)` — rather than only the logical range `[0, N)`. -/
theorem claim_C4 (v : RawBitVector) (hb : ∀ b ∈ v.byte_vec, b < 256) :
    v.popcount = v.onesBelow (8 * v.byte_vec.length) := by
  rw [popcount_eq_countAccess v hb]
  rfl

theorem claim_C4_witness :
    (∀ b ∈ ([1] : List Nat), b < 256) ∧
    RawBitVector.popcount ⟨[1], 1⟩
      = RawBitVector.onesBelow ⟨[1], 1⟩ (8 * ([1] : List Nat).length) :=
  ⟨by decide, claim_C4 ⟨[1], 1⟩ (by decide)⟩

/-- C5: `copy_sub(i, size)` has length `size` and reproduces bits `[i, i+size)` of
the source (byte-unaligned `i` included), and for `size ≤ 32` its `as_u32` packs
those bits MSB-first with zero padding below. -/
theorem claim_C5 (v : RawBitVector) (hb : ∀ b ∈ v.byte_vec, b < 256)
    (i size : Nat) (h1 : 1 ≤ size) (his : i + size ≤ v.length) :
    (v.copy_sub i size).length = size ∧
    (∀ j, j < size → (v.copy_sub i size).access j = v.access (i + j)) ∧
    (size ≤ 32 → ∀ p, p < 32 →
      (v.copy_sub i size).as_u32.testBit (31 - p)
        = if p < size then v.access (i + p) else false) := by
  refine ⟨copy_sub_length v i size h1, fun j hj => copy_sub_access v i size j hb hj, ?_⟩
  intro hsz p hp
  rw [as_u32_testBit (v.copy_sub i size) (copy_sub_bytes_lt v i size hb) p hp]
  by_cases hps : p < size
  · rw [if_pos hps, copy_sub_access v i size p hb hps]
  · rw [if_neg hps, copy_sub_access_high v i size p hb (by omega)]

theorem claim_C5_witness :
    (∀ b ∈ ([177, 3] : List Nat), b < 256) ∧ 1 ≤ 5 ∧
    3 + 5 ≤ RawBitVector.length ⟨[177, 3], 8⟩ ∧
    (RawBitVector.copy_sub ⟨[177, 3], 8⟩ 3 5).length = 5 := by
  have h := claim_C5 ⟨[177, 3], 8⟩ (by decide) 3 5 (by decide) (by decide)
  exact ⟨by decide, by decide, by decide, h.1⟩

/-- C6: the chunk directory has `⌈N / chunk_size⌉` chunks; every chunk has length
`chunk_size` except possibly the last (`N mod chunk_size`, or `chunk_size` when it
divides `N`); and each chunk's `value` is the cumulative popcount of the raw vector
from bit 0 through the chunk's last bit. -/
theorem claim_C6 (v : RawBitVector) (hb : ∀ b ∈ v.byte_vec, b < 256)
    (hn : 1 ≤ v.length) :
    (Chunks.new v).chunks_cnt
        = (v.length + Chunks.calc_chunk_size v.length - 1)
            / Chunks.calc_chunk_size v.length ∧
    (∀ c, c < (Chunks.new v).chunks_cnt →
      (c < (Chunks.new v).chunks_cnt - 1 →
        ((Chunks.new v).access c).length = Chunks.calc_chunk_size v.length) ∧
      (c = (Chunks.new v).chunks_cnt - 1 →
        ((Chunks.new v).access c).length
          = if v.length % Chunks.calc_chunk_size v.length = 0
            then Chunks.calc_chunk_size v.length
            else v.length % Chunks.calc_chunk_size v.length) ∧
      ((Chunks.new v).access c).value
        = v.onesBelow (c * Chunks.calc_chunk_size v.length
            + ((Chunks.new v).access c).length)) := by
  have hcs : 1 ≤ Chunks.calc_chunk_size v.length := calc_chunk_size_pos v.length
  constructor
  · rw [chunks_new_cnt]
    unfold Chunks.calc_chunks_cnt
    exact ceil_div v.length _ hcs
  · intro c hc
    rw [chunks_new_cnt] at hc
    have haccess : (Chunks.new v).access c
        = ⟨v.onesBelow (min ((c + 1) * Chunks.calc_chunk_size v.length) v.length),
           Chunks.this_chunk_size v.length (Chunks.calc_chunk_size v.length)
              (Chunks.calc_chunks_cnt v.length) c,
           Blocks.new v c (Chunks.this_chunk_size v.length (Chunks.calc_chunk_size v.length)
              (Chunks.calc_chunks_cnt v.length) c)⟩ := by
      show (Chunks.new v).chunks.getD c ⟨0, 0, ⟨[], 0⟩⟩ = _
      exact chunks_new_getD v hb hn c hc
    rw [chunks_new_cnt, haccess]
    refine ⟨?_, ?_, ?_⟩
    · intro hnotlast
      show Chunks.this_chunk_size v.length (Chunks.calc_chunk_size v.length)
          (Chunks.calc_chunks_cnt v.length) c = Chunks.calc_chunk_size v.length
      unfold Chunks.this_chunk_size
      rw [if_neg (by omega)]
    · intro hlast
      show Chunks.this_chunk_size v.length (Chunks.calc_chunk_size v.length)
          (Chunks.calc_chunks_cnt v.length) c
        = if v.length % Chunks.calc_chunk_size v.length = 0
          then Chunks.calc_chunk_size v.length
          else v.length % Chunks.calc_chunk_size v.length
      unfold Chunks.this_chunk_size
      rw [if_pos hlast]
    · show v.onesBelow (min ((c + 1) * Chunks.calc_chunk_size v.length) v.length)
        = v.onesBelow (c * Chunks.calc_chunk_size v.length
            + Chunks.this_chunk_size v.length (Chunks.calc_chunk_size v.length)
                (Chunks.calc_chunks_cnt v.length) c)
      rw [this_chunk_size_spec v.length hn c hc]

theorem claim_C6_witness :
    (∀ b ∈ ([255] : List Nat), b < 256) ∧ 1 ≤ RawBitVector.length ⟨[255], 4⟩ ∧
    (Chunks.new ⟨[255], 4⟩).chunks_cnt
      = (RawBitVector.length ⟨[255], 4⟩
          + Chunks.calc_chunk_size (RawBitVector.length ⟨[255], 4⟩) - 1)
          / Chunks.calc_chunk_size (RawBitVector.length ⟨[255], 4⟩) := by
  have h := claim_C6 ⟨[255], 4⟩ (by decide) (by decide)
  exact ⟨by decide, by decide, h.1⟩

/-- C9 (code-bug evidence): for every built chunk directory the guard accepts the
out-of-range index `chunks_cnt` — the source asserts `i <= cnt`, not `i < cnt` —
although the chunk list holds exactly `chunks_cnt` entries, so indexing there is out
of bounds; likewise for every `Blocks` and `blocks_cnt`. -/
theorem claim_C9 (v : RawBitVector) :
    (Chunks.access_assert (Chunks.new v) (Chunks.new v).chunks_cnt = true ∧
     (Chunks.new v).chunks.length = (Chunks.new v).chunks_cnt) ∧
    ∀ i_chunk this_chunk_size,
      Blocks.access_assert (Blocks.new v i_chunk this_chunk_size)
          (Blocks.new v i_chunk this_chunk_size).blocks_cnt = true ∧
      (Blocks.new v i_chunk this_chunk_size).blocks.length
        = (Blocks.new v i_chunk this_chunk_size).blocks_cnt := by
  refine ⟨⟨?_, ?_⟩, ?_⟩
  · show decide ((Chunks.new v).chunks_cnt ≤ (Chunks.new v).chunks_cnt) = true
    simp
  · rw [chunks_new_length, chunks_new_cnt]
  · intro i_chunk this_chunk_size
    constructor
    · show decide ((Blocks.new v i_chunk this_chunk_size).blocks_cnt
          ≤ (Blocks.new v i_chunk this_chunk_size).blocks_cnt) = true
      simp
    · show (Blocks.build v i_chunk
          (this_chunk_size / Blocks.calc_block_size v.length +
            if this_chunk_size % Blocks.calc_block_size v.length = 0 then 0 else 1)).length
        = (this_chunk_size / Blocks.calc_block_size v.length +
            if this_chunk_size % Blocks.calc_block_size v.length = 0 then 0 else 1)
      exact blocks_build_length v i_chunk _

theorem claim_C9_witness :
    Chunks.access_assert (Chunks.new ⟨[0], 1⟩) (Chunks.new ⟨[0], 1⟩).chunks_cnt = true ∧
    (Chunks.new ⟨[0], 1⟩).chunks.length = (Chunks.new ⟨[0], 1⟩).chunks_cnt :=
  (claim_C9 ⟨[0], 1⟩).1

/-- C7: `from_bit_string` fails (returns `none`, modelling the assert panics) exactly
when the bit string violates the LBS conditions — start "10", every prefix
`count('0') ≤ count('1') + 1`, total `count('0') = count('1') + 1` — and on a valid
string yields a LOUDS over exactly those bits. -/
theorem claim_C7 (bits : List Bool) :
    (Louds.from_bit_string bits = none ↔ ¬ specLbsValid bits) ∧
    (specLbsValid bits →
      ∃ l, Louds.from_bit_string bits = some l ∧
        ∀ j, l.lbs.index j = bits.getD j false) := by
  constructor
  · unfold Louds.from_bit_string
    by_cases h : validate_lbs bits = true
    · rw [if_pos h]
      constructor
      · intro hn
        exact absurd hn (by simp)
      · intro hv
        exact absurd ((validate_lbs_iff bits).mp h) hv
    · rw [if_neg h]
      constructor
      · intro _ hv
        exact h ((validate_lbs_iff bits).mpr hv)
      · intro _
        rfl
  · intro hv
    have h : validate_lbs bits = true := (validate_lbs_iff bits).mpr hv
    refine ⟨⟨SuccinctBitVector.from_bits bits⟩, ?_, ?_⟩
    · unfold Louds.from_bit_string
      rw [if_pos h]
    · intro j
      have hne : bits ≠ [] := by
        intro hnil
        have h2 := hv.1
        rw [hnil] at h2
        simp at h2
      exact build_index_eq _ _ bits (from_bits_buildsFrom bits hne) j

theorem claim_C7_witness :
    (Louds.from_bit_string [true, true, false] = none
      ↔ ¬ specLbsValid [true, true, false]) ∧
    (Louds.from_bit_string [true, false, false] = none
      ↔ ¬ specLbsValid [true, false, false]) :=
  ⟨(claim_C7 [true, true, false]).1, (claim_C7 [true, false, false]).1⟩

/-- C8: on a LOUDS built from a valid LBS, for every node number
`n ∈ [1, node_count]` (the node count being the number of 1-bits of the LBS),
`index_to_node_num (node_num_to_index n) = n`. -/
theorem claim_C8 (bits : List Bool) (l : Louds)
    (hl : Louds.from_bit_string bits = some l) (hn64 : bits.length < 2 ^ 64)
    (n : Nat) (h1 : 1 ≤ n) (hcnt : n ≤ bits.count true) :
    ∃ i, l.node_num_to_index n = some i ∧ l.index_to_node_num i = some n := by
  unfold Louds.from_bit_string at hl
  by_cases h : validate_lbs bits = true
  case neg =>
    rw [if_neg h] at hl
    exact absurd hl (by simp)
  rw [if_pos h] at hl
  obtain rfl : (⟨SuccinctBitVector.from_bits bits⟩ : Louds) = l := Option.some.inj hl
  have hv := (validate_lbs_iff bits).mp h
  have hne : bits ≠ [] := by
    intro hnil
    have h2 := hv.1
    rw [hnil] at h2
    simp at h2
  have hbf := from_bits_buildsFrom bits hne
  obtain ⟨r, hsel, hrN, hrank, hmin, hget⟩ :=
    build_select_some _ _ bits hbf hn64 n h1 hcnt
  refine ⟨r, ?_, ?_⟩
  · unfold Louds.node_num_to_index
    rw [if_neg (by omega)]
    exact hsel
  · unfold Louds.index_to_node_num
    rw [show (⟨SuccinctBitVector.from_bits bits⟩ : Louds).lbs.index r
        = bits.getD r false from build_index_eq _ _ bits hbf r, hget]
    rw [if_pos rfl]
    rw [show (⟨SuccinctBitVector.from_bits bits⟩ : Louds).lbs.rank r
        = specRank bits r from build_rank_eq _ _ bits hbf hn64 r hrN, hrank]

theorem claim_C8_witness :
    Louds.from_bit_string [true, false, false]
        = some ⟨SuccinctBitVector.from_bits [true, false, false]⟩ ∧
    ([true, false, false] : List Bool).length < 2 ^ 64 ∧
    1 ≤ ([true, false, false] : List Bool).count true ∧
    (∃ i, Louds.node_num_to_index ⟨SuccinctBitVector.from_bits [true, false, false]⟩ 1
            = some i ∧
          Louds.index_to_node_num ⟨SuccinctBitVector.from_bits [true, false, false]⟩ i
            = some 1) :=
  ⟨rfl, by norm_num, by decide,
   claim_C8 [true, false, false] ⟨SuccinctBitVector.from_bits [true, false, false]⟩
     rfl (by norm_num) 1 (by decide) (by decide)⟩

/-- C10: on a LOUDS built from a valid LBS, `parent_to_children n` for
`n ∈ [1, node_count]` succeeds without reading past the LBS: the scan from
`select0(n) + 1` meets a 0-bit at some `e < len(lbs)`, every position strictly
between is a 1-bit, and the result is exactly those consecutive positions in
increasing order. -/
theorem claim_C10 (bits : List Bool) (l : Louds)
    (hl : Louds.from_bit_string bits = some l) (hn64 : bits.length < 2 ^ 64)
    (n : Nat) (h1 : 1 ≤ n) (hcnt : n ≤ bits.count true) :
    ∃ s e, l.lbs.select0 n = some s ∧ s < e ∧ e < bits.length ∧
      bits.getD e false = false ∧ (∀ j, s < j → j < e → bits.getD j false = true) ∧
      l.parent_to_children n = some (List.range' (s + 1) (e - (s + 1))) := by
  unfold Louds.from_bit_string at hl
  by_cases h : validate_lbs bits = true
  case neg =>
    rw [if_neg h] at hl
    exact absurd hl (by simp)
  rw [if_pos h] at hl
  obtain rfl : (⟨SuccinctBitVector.from_bits bits⟩ : Louds) = l := Option.some.inj hl
  have hv := (validate_lbs_iff bits).mp h
  have hne : bits ≠ [] := by
    intro hnil
    have h2 := hv.1
    rw [hnil] at h2
    simp at h2
  have hN : 1 ≤ bits.length := by
    cases bits with
    | nil => exact absurd rfl hne
    | cons a t => simp
  have hbf := from_bits_buildsFrom bits hne
  have htot : bits.count false = bits.count true + 1 := hv.2.2
  have hcnt0 : n ≤ bits.count false := by omega
  obtain ⟨s, hsel0, hsN, hrank0s, hmin0, hgets⟩ :=
    build_select0_some _ _ bits hbf hn64 n h1 hcnt0
  have hlast0 : specRank0 bits (bits.length - 1) = bits.count false :=
    specRank0_last bits hN
  have hgrow : specRank0 bits s < specRank0 bits (bits.length - 1) := by
    rw [hlast0, hrank0s]
    omega
  obtain ⟨j0, hj01, hj02, hj03⟩ := specRank0_exists_zero bits (bits.length - 1) s hgrow
  have hex : ∃ j, s < j ∧ bits.getD j false = false := ⟨j0, hj01, hj03⟩
  set e := Nat.find hex with hedef
  have hespec : s < e ∧ bits.getD e false = false := Nat.find_spec hex
  have hemin : ∀ m, m < e → ¬(s < m ∧ bits.getD m false = false) :=
    fun m hm => Nat.find_min hex hm
  have hele : e ≤ j0 := Nat.find_min' hex ⟨hj01, hj03⟩
  have heN : e < bits.length := by omega
  have hones : ∀ j, s < j → j < e → bits.getD j false = true := by
    intro j hj1 hj2
    have := hemin j hj2
    cases hg : bits.getD j false
    · exact absurd ⟨hj1, hg⟩ this
    · rfl
  refine ⟨s, e, hsel0, hespec.1, heN, hespec.2, hones, ?_⟩
  unfold Louds.parent_to_children
  rw [if_neg (by omega)]
  rw [show (⟨SuccinctBitVector.from_bits bits⟩ : Louds).lbs.select0 n = some s
      from hsel0]
  have hlen := build_len_eq _ _ bits hbf
  apply scanChildren_spec
  · show e < (Fid.build (RawBitVector.from_bits bits).byte_vec
        (RawBitVector.from_bits bits).last_byte_len).len
    rw [hlen]
    exact heN
  · show (Fid.build (RawBitVector.from_bits bits).byte_vec
        (RawBitVector.from_bits bits).last_byte_len).index e = false
    rw [build_index_eq _ _ bits hbf e]
    exact hespec.2
  · omega
  · show e - (s + 1) < (Fid.build (RawBitVector.from_bits bits).byte_vec
        (RawBitVector.from_bits bits).last_byte_len).len + 1
    rw [hlen]
    omega
  · intro j hj1 hj2
    show (Fid.build (RawBitVector.from_bits bits).byte_vec
        (RawBitVector.from_bits bits).last_byte_len).index j = true
    rw [build_index_eq _ _ bits hbf j]
    exact hones j (by omega) hj2

theorem claim_C10_witness :
    Louds.from_bit_string [true, false, false]
        = some ⟨SuccinctBitVector.from_bits [true, false, false]⟩ ∧
    ([true, false, false] : List Bool).length < 2 ^ 64 ∧
    1 ≤ ([true, false, false] : List Bool).count true ∧
    (∃ s e,
      (Louds.mk (SuccinctBitVector.from_bits [true, false, false])).lbs.select0 1
          = some s ∧
      s < e ∧ e < ([true, false, false] : List Bool).length ∧
      ([true, false, false] : List Bool).getD e false = false ∧
      (∀ j, s < j → j < e → ([true, false, false] : List Bool).getD j false = true) ∧
      (Louds.mk (SuccinctBitVector.from_bits [true, false, false])).parent_to_children 1
          = some (List.range' (s + 1) (e - (s + 1)))) :=
  ⟨rfl, by norm_num, by decide,
   claim_C10 [true, false, false] ⟨SuccinctBitVector.from_bits [true, false, false]⟩
     rfl (by norm_num) 1 (by decide) (by decide)⟩

end FidRs
